import Mathlib

/-!
Verification of the mmp-to-MusicXML conversion engine (`src/mmp-to-musicXML.py`).

The Python source is shallowly embedded below.  Notes, positions and lengths
are modelled as `Nat` (tick counts read from the project file are non-negative
in every behaviour the claims quantify over; theorems that depend on it carry
explicit hypotheses).  Python dictionaries keyed by position are modelled as
functions `Nat → Option Nat`; the `OrderedDict` of rest counts is modelled as
an association list in insertion order, which is exactly the iteration order
the driver uses when emitting rests.
-/

/-! ### Constants of the source (`LMMS_MEASURE_LENGTH`, `NOTE_TYPE`, `NOTE_LENGTHS`, `NOTES`) -/

def LMMS_MEASURE_LENGTH : Nat := 192

/-- `NOTE_TYPE`: true tick length of each note type name. -/
def NOTE_TYPE : String → Nat
  | "whole" => 192
  | "half" => 96
  | "quarter" => 48
  | "eighth" => 24
  | "16th" => 12
  | "32nd" => 6
  | "64th" => 3
  | _ => 0

/-- `NOTE_LENGTHS`: the note type to use for a given length, listed in the
descending key order in which `findClosestNoteType` iterates
(`sorted(NOTE_LENGTHS, reverse=True)`). -/
def NOTE_LENGTHS : List (Nat × String) :=
  [(192, "whole"), (168, "half"), (144, "half"), (96, "half"), (72, "quarter"),
   (48, "quarter"), (36, "eighth"), (24, "eighth"), (12, "16th"), (6, "32nd"), (3, "64th")]

/-- Dictionary lookup `NOTE_LENGTHS[n]`. -/
def noteLengthName (n : Nat) : String :=
  ((NOTE_LENGTHS.find? (fun kv => kv.1 == n)).map Prod.snd).getD ""

/-- `NOTES`: pitch class names indexed by piano key modulo 12. -/
def NOTES : Nat → String
  | 0 => "C"
  | 1 => "C#"
  | 2 => "D"
  | 3 => "D#"
  | 4 => "E"
  | 5 => "F"
  | 6 => "F#"
  | 7 => "G"
  | 8 => "G#"
  | 9 => "A"
  | 10 => "A#"
  | 11 => "B"
  | _ => ""

def INSTRUMENTS : List String :=
  ["piano", "bass", "vibes", "orchestra", "violin", "cello", "tuba", "trombone",
   "french horn", "horn", "trumpet", "flute", "oboe", "clarinet", "bassoon",
   "street bass", "guitar", "str", "marc str", "pizz", "harp", "piccolo"]

def BASS_INSTRUMENTS : List String :=
  ["bass", "cello", "double bass", "trombone", "tuba", "bassoon", "street bass"]

/-! ### `findClosestNoteType` -/

/-- `findClosestNoteType(length)`: walk the `NOTE_LENGTHS` keys in descending
order and return the first (largest) one that is `≤ length`; if none
qualifies return `NOTE_LENGTHS[3]`. -/
def findClosestNoteType (length : Nat) : String :=
  match NOTE_LENGTHS.find? (fun kv => decide (kv.1 ≤ length)) with
  | some kv => kv.2
  | none => noteLengthName 3

/-- Closed form of `findClosestNoteType` as a chain of interval tests. -/
theorem findClosestNoteType_eq (L : Nat) :
    findClosestNoteType L =
      if 192 ≤ L then "whole"
      else if 168 ≤ L then "half"
      else if 144 ≤ L then "half"
      else if 96 ≤ L then "half"
      else if 72 ≤ L then "quarter"
      else if 48 ≤ L then "quarter"
      else if 36 ≤ L then "eighth"
      else if 24 ≤ L then "eighth"
      else if 12 ≤ L then "16th"
      else if 6 ≤ L then "32nd"
      else "64th" := by
  by_cases h1 : 192 ≤ L
  · simp [findClosestNoteType, NOTE_LENGTHS, List.find?_cons, h1]
  by_cases h2 : 168 ≤ L
  · simp [findClosestNoteType, NOTE_LENGTHS, List.find?_cons, h1, h2]
  by_cases h3 : 144 ≤ L
  · simp [findClosestNoteType, NOTE_LENGTHS, List.find?_cons, h1, h2, h3]
  by_cases h4 : 96 ≤ L
  · simp [findClosestNoteType, NOTE_LENGTHS, List.find?_cons, h1, h2, h3, h4]
  by_cases h5 : 72 ≤ L
  · simp [findClosestNoteType, NOTE_LENGTHS, List.find?_cons, h1, h2, h3, h4, h5]
  by_cases h6 : 48 ≤ L
  · simp [findClosestNoteType, NOTE_LENGTHS, List.find?_cons, h1, h2, h3, h4, h5, h6]
  by_cases h7 : 36 ≤ L
  · simp [findClosestNoteType, NOTE_LENGTHS, List.find?_cons, h1, h2, h3, h4, h5, h6, h7]
  by_cases h8 : 24 ≤ L
  · simp [findClosestNoteType, NOTE_LENGTHS, List.find?_cons, h1, h2, h3, h4, h5, h6, h7, h8]
  by_cases h9 : 12 ≤ L
  · simp [findClosestNoteType, NOTE_LENGTHS, List.find?_cons, h1, h2, h3, h4, h5, h6, h7, h8, h9]
  by_cases h10 : 6 ≤ L
  · simp [findClosestNoteType, NOTE_LENGTHS, List.find?_cons,
      h1, h2, h3, h4, h5, h6, h7, h8, h9, h10]
  by_cases h11 : 3 ≤ L
  · simp [findClosestNoteType, NOTE_LENGTHS, List.find?_cons,
      h1, h2, h3, h4, h5, h6, h7, h8, h9, h10, h11, noteLengthName]
  · simp [findClosestNoteType, NOTE_LENGTHS, List.find?_cons,
      h1, h2, h3, h4, h5, h6, h7, h8, h9, h10, h11, noteLengthName]

/-- C7: `findClosestNoteType` is total and pure; it returns the documented type
on every table length, the type of the largest table length `≤` the input in
general, and `"64th"` for every input `< 3`. -/
theorem findClosestNoteType_spec :
    (findClosestNoteType 192 = "whole" ∧ findClosestNoteType 168 = "half" ∧
     findClosestNoteType 144 = "half" ∧ findClosestNoteType 96 = "half" ∧
     findClosestNoteType 72 = "quarter" ∧ findClosestNoteType 48 = "quarter" ∧
     findClosestNoteType 36 = "eighth" ∧ findClosestNoteType 24 = "eighth" ∧
     findClosestNoteType 12 = "16th" ∧ findClosestNoteType 6 = "32nd" ∧
     findClosestNoteType 3 = "64th")
    ∧ (∀ L : Nat, ∀ p ∈ NOTE_LENGTHS, p.1 ≤ L →
        (∀ q ∈ NOTE_LENGTHS, q.1 ≤ L → q.1 ≤ p.1) →
        findClosestNoteType L = p.2)
    ∧ (∀ L : Nat, L < 3 → findClosestNoteType L = "64th") := by
  refine ⟨by decide, ?_, ?_⟩
  · intro L p hp hle hmax
    simp only [NOTE_LENGTHS, List.mem_cons, List.not_mem_nil, or_false] at hp
    rcases hp with h | h | h | h | h | h | h | h | h | h | h <;> subst h
    · rw [findClosestNoteType_eq, if_pos (hle : 192 ≤ L)]
    · have n1 : ¬ (192 ≤ L) := fun hl => by have := hmax (192, "whole") (by decide) hl; omega
      rw [findClosestNoteType_eq, if_neg n1, if_pos (hle : 168 ≤ L)]
    · have n1 : ¬ (192 ≤ L) := fun hl => by have := hmax (192, "whole") (by decide) hl; omega
      have n2 : ¬ (168 ≤ L) := fun hl => by have := hmax (168, "half") (by decide) hl; omega
      rw [findClosestNoteType_eq, if_neg n1, if_neg n2, if_pos (hle : 144 ≤ L)]
    · have n1 : ¬ (192 ≤ L) := fun hl => by have := hmax (192, "whole") (by decide) hl; omega
      have n2 : ¬ (168 ≤ L) := fun hl => by have := hmax (168, "half") (by decide) hl; omega
      have n3 : ¬ (144 ≤ L) := fun hl => by have := hmax (144, "half") (by decide) hl; omega
      rw [findClosestNoteType_eq, if_neg n1, if_neg n2, if_neg n3, if_pos (hle : 96 ≤ L)]
    · have n1 : ¬ (192 ≤ L) := fun hl => by have := hmax (192, "whole") (by decide) hl; omega
      have n2 : ¬ (168 ≤ L) := fun hl => by have := hmax (168, "half") (by decide) hl; omega
      have n3 : ¬ (144 ≤ L) := fun hl => by have := hmax (144, "half") (by decide) hl; omega
      have n4 : ¬ (96 ≤ L) := fun hl => by have := hmax (96, "half") (by decide) hl; omega
      rw [findClosestNoteType_eq, if_neg n1, if_neg n2, if_neg n3, if_neg n4,
        if_pos (hle : 72 ≤ L)]
    · have n1 : ¬ (192 ≤ L) := fun hl => by have := hmax (192, "whole") (by decide) hl; omega
      have n2 : ¬ (168 ≤ L) := fun hl => by have := hmax (168, "half") (by decide) hl; omega
      have n3 : ¬ (144 ≤ L) := fun hl => by have := hmax (144, "half") (by decide) hl; omega
      have n4 : ¬ (96 ≤ L) := fun hl => by have := hmax (96, "half") (by decide) hl; omega
      have n5 : ¬ (72 ≤ L) := fun hl => by have := hmax (72, "quarter") (by decide) hl; omega
      rw [findClosestNoteType_eq, if_neg n1, if_neg n2, if_neg n3, if_neg n4, if_neg n5,
        if_pos (hle : 48 ≤ L)]
    · have n1 : ¬ (192 ≤ L) := fun hl => by have := hmax (192, "whole") (by decide) hl; omega
      have n2 : ¬ (168 ≤ L) := fun hl => by have := hmax (168, "half") (by decide) hl; omega
      have n3 : ¬ (144 ≤ L) := fun hl => by have := hmax (144, "half") (by decide) hl; omega
      have n4 : ¬ (96 ≤ L) := fun hl => by have := hmax (96, "half") (by decide) hl; omega
      have n5 : ¬ (72 ≤ L) := fun hl => by have := hmax (72, "quarter") (by decide) hl; omega
      have n6 : ¬ (48 ≤ L) := fun hl => by have := hmax (48, "quarter") (by decide) hl; omega
      rw [findClosestNoteType_eq, if_neg n1, if_neg n2, if_neg n3, if_neg n4, if_neg n5,
        if_neg n6, if_pos (hle : 36 ≤ L)]
    · have n1 : ¬ (192 ≤ L) := fun hl => by have := hmax (192, "whole") (by decide) hl; omega
      have n2 : ¬ (168 ≤ L) := fun hl => by have := hmax (168, "half") (by decide) hl; omega
      have n3 : ¬ (144 ≤ L) := fun hl => by have := hmax (144, "half") (by decide) hl; omega
      have n4 : ¬ (96 ≤ L) := fun hl => by have := hmax (96, "half") (by decide) hl; omega
      have n5 : ¬ (72 ≤ L) := fun hl => by have := hmax (72, "quarter") (by decide) hl; omega
      have n6 : ¬ (48 ≤ L) := fun hl => by have := hmax (48, "quarter") (by decide) hl; omega
      have n7 : ¬ (36 ≤ L) := fun hl => by have := hmax (36, "eighth") (by decide) hl; omega
      rw [findClosestNoteType_eq, if_neg n1, if_neg n2, if_neg n3, if_neg n4, if_neg n5,
        if_neg n6, if_neg n7, if_pos (hle : 24 ≤ L)]
    · have n1 : ¬ (192 ≤ L) := fun hl => by have := hmax (192, "whole") (by decide) hl; omega
      have n2 : ¬ (168 ≤ L) := fun hl => by have := hmax (168, "half") (by decide) hl; omega
      have n3 : ¬ (144 ≤ L) := fun hl => by have := hmax (144, "half") (by decide) hl; omega
      have n4 : ¬ (96 ≤ L) := fun hl => by have := hmax (96, "half") (by decide) hl; omega
      have n5 : ¬ (72 ≤ L) := fun hl => by have := hmax (72, "quarter") (by decide) hl; omega
      have n6 : ¬ (48 ≤ L) := fun hl => by have := hmax (48, "quarter") (by decide) hl; omega
      have n7 : ¬ (36 ≤ L) := fun hl => by have := hmax (36, "eighth") (by decide) hl; omega
      have n8 : ¬ (24 ≤ L) := fun hl => by have := hmax (24, "eighth") (by decide) hl; omega
      rw [findClosestNoteType_eq, if_neg n1, if_neg n2, if_neg n3, if_neg n4, if_neg n5,
        if_neg n6, if_neg n7, if_neg n8, if_pos (hle : 12 ≤ L)]
    · have n1 : ¬ (192 ≤ L) := fun hl => by have := hmax (192, "whole") (by decide) hl; omega
      have n2 : ¬ (168 ≤ L) := fun hl => by have := hmax (168, "half") (by decide) hl; omega
      have n3 : ¬ (144 ≤ L) := fun hl => by have := hmax (144, "half") (by decide) hl; omega
      have n4 : ¬ (96 ≤ L) := fun hl => by have := hmax (96, "half") (by decide) hl; omega
      have n5 : ¬ (72 ≤ L) := fun hl => by have := hmax (72, "quarter") (by decide) hl; omega
      have n6 : ¬ (48 ≤ L) := fun hl => by have := hmax (48, "quarter") (by decide) hl; omega
      have n7 : ¬ (36 ≤ L) := fun hl => by have := hmax (36, "eighth") (by decide) hl; omega
      have n8 : ¬ (24 ≤ L) := fun hl => by have := hmax (24, "eighth") (by decide) hl; omega
      have n9 : ¬ (12 ≤ L) := fun hl => by have := hmax (12, "16th") (by decide) hl; omega
      rw [findClosestNoteType_eq, if_neg n1, if_neg n2, if_neg n3, if_neg n4, if_neg n5,
        if_neg n6, if_neg n7, if_neg n8, if_neg n9, if_pos (hle : 6 ≤ L)]
    · have n1 : ¬ (192 ≤ L) := fun hl => by have := hmax (192, "whole") (by decide) hl; omega
      have n2 : ¬ (168 ≤ L) := fun hl => by have := hmax (168, "half") (by decide) hl; omega
      have n3 : ¬ (144 ≤ L) := fun hl => by have := hmax (144, "half") (by decide) hl; omega
      have n4 : ¬ (96 ≤ L) := fun hl => by have := hmax (96, "half") (by decide) hl; omega
      have n5 : ¬ (72 ≤ L) := fun hl => by have := hmax (72, "quarter") (by decide) hl; omega
      have n6 : ¬ (48 ≤ L) := fun hl => by have := hmax (48, "quarter") (by decide) hl; omega
      have n7 : ¬ (36 ≤ L) := fun hl => by have := hmax (36, "eighth") (by decide) hl; omega
      have n8 : ¬ (24 ≤ L) := fun hl => by have := hmax (24, "eighth") (by decide) hl; omega
      have n9 : ¬ (12 ≤ L) := fun hl => by have := hmax (12, "16th") (by decide) hl; omega
      have n10 : ¬ (6 ≤ L) := fun hl => by have := hmax (6, "32nd") (by decide) hl; omega
      rw [findClosestNoteType_eq, if_neg n1, if_neg n2, if_neg n3, if_neg n4, if_neg n5,
        if_neg n6, if_neg n7, if_neg n8, if_neg n9, if_neg n10]
  · intro L hL
    interval_cases L <;> decide

/-- Witness for `findClosestNoteType_spec` at `L = 100` (largest table length
`≤ 100` is `96`, a half) and at `L = 2 < 3`. -/
theorem findClosestNoteType_spec_witness :
    ((96, "half") ∈ NOTE_LENGTHS ∧ 96 ≤ 100 ∧
      (∀ q ∈ NOTE_LENGTHS, q.1 ≤ 100 → q.1 ≤ 96) ∧ (2 : Nat) < 3) ∧
    findClosestNoteType 100 = "half" ∧ findClosestNoteType 2 = "64th" :=
  ⟨⟨by decide, by decide, by decide, by decide⟩,
   findClosestNoteType_spec.2.1 100 (96, "half") (by decide) (by decide) (by decide),
   findClosestNoteType_spec.2.2 2 (by decide)⟩

/-! ### `getRests` -/

/-- `getRests(initialDistance)`: greedy decomposition of a gap into rest
counts, largest unit first; the resulting `OrderedDict` holds its keys in the
insertion order `64th, 32nd, 16th, eighth, quarter, whole`. -/
def getRests (initialDistance : Nat) : List (String × Nat) :=
  let numWholeRests := initialDistance / LMMS_MEASURE_LENGTH
  let remSize := initialDistance - numWholeRests * LMMS_MEASURE_LENGTH
  let numQuarterRests := remSize / 48
  let remSize2 := remSize - numQuarterRests * 48
  let numEighthRests := remSize2 / 24
  let remSize3 := remSize2 - numEighthRests * 24
  let num16thRests := remSize3 / 12
  let remSize4 := remSize3 - num16thRests * 12
  let num32ndRests := remSize4 / 6
  let remSize5 := remSize4 - num32ndRests * 6
  let num64thRests := remSize5 / 3
  [("64th", num64thRests), ("32nd", num32ndRests), ("16th", num16thRests),
   ("eighth", numEighthRests), ("quarter", numQuarterRests), ("whole", numWholeRests)]

/-- Total tick value of a rest decomposition, converting each `(type, count)`
pair back to ticks through the `NOTE_TYPE` table. -/
def restTicks (l : List (String × Nat)) : Nat :=
  l.foldl (fun acc tc => acc + NOTE_TYPE tc.1 * tc.2) 0

/-- C5: converting every `(type, count)` pair of `getRests gapTicks` back to
ticks and summing yields `gapTicks` minus a remainder `r` with `r < 3`. -/
theorem getRests_roundtrip (g : Nat) :
    restTicks (getRests g) = g - g % 3 ∧ g % 3 < 3 := by
  have t1 : NOTE_TYPE "64th" = 3 := rfl
  have t2 : NOTE_TYPE "32nd" = 6 := rfl
  have t3 : NOTE_TYPE "16th" = 12 := rfl
  have t4 : NOTE_TYPE "eighth" = 24 := rfl
  have t5 : NOTE_TYPE "quarter" = 48 := rfl
  have t6 : NOTE_TYPE "whole" = 192 := rfl
  simp only [getRests, restTicks, LMMS_MEASURE_LENGTH, List.foldl, t1, t2, t3, t4, t5, t6]
  omega

/-- C6: the rest decomposer never produces a half-rest bucket, and its
sequence of entries is in the fixed order `64th, 32nd, 16th, eighth, quarter,
whole` (smallest duration first), for every gap. -/
theorem getRests_no_half_and_order (g : Nat) :
    (∀ c : Nat, ("half", c) ∉ getRests g) ∧
    (getRests g).map Prod.fst = ["64th", "32nd", "16th", "eighth", "quarter", "whole"] := by
  constructor
  · intro c h
    simp [getRests] at h
  · rfl

/-! ### Notation items and `addRest` -/

/-- One notation element appended into a measure: a pitched note, a typed
rest, or a whole-measure rest (the `rest measure="yes"` note with duration
text `"32"`). -/
inductive MItem where
  | noteItem (chord : Bool) (step : String) (alter : Bool) (octave : Nat)
      (duration : Nat) (type : String)
  | restItem (type : String) (durationText : String)
  | measureRest (durationText : String)
deriving DecidableEq

/-- The duration text `addRest` assigns for a rest of the given type
(`""` when no branch of the if-chain matches). -/
def restDurationText (type : String) : String :=
  if type = "32nd" then "1"
  else if type = "16th" then "2"
  else if type = "eighth" then "4"
  else if type = "quarter" then "8"
  else if type = "half" then "16"
  else ""

/-- `addRest(parentNode, type)`: build the rest note element of the given
type, with the duration text computed by `restDurationText`. -/
def addRest (type : String) : MItem :=
  MItem.restItem type (restDurationText type)

/-- C10: `addRest` assigns a numeric duration text only for `32nd`, `16th`,
`eighth`, `quarter` and `half`; every other type — including the `64th` and
`whole` types that `getRests` emits with nonzero counts — gets the empty
duration text. -/
theorem addRest_durationText_spec :
    (addRest "32nd" = MItem.restItem "32nd" "1" ∧
     addRest "16th" = MItem.restItem "16th" "2" ∧
     addRest "eighth" = MItem.restItem "eighth" "4" ∧
     addRest "quarter" = MItem.restItem "quarter" "8" ∧
     addRest "half" = MItem.restItem "half" "16")
    ∧ (∀ t : String, t ≠ "32nd" → t ≠ "16th" → t ≠ "eighth" → t ≠ "quarter" →
        t ≠ "half" → addRest t = MItem.restItem t "")
    ∧ (addRest "64th" = MItem.restItem "64th" "" ∧
       addRest "whole" = MItem.restItem "whole" "" ∧
       ("64th", 1) ∈ getRests 3 ∧ ("whole", 1) ∈ getRests 192) := by
  refine ⟨by decide, ?_, by decide⟩
  intro t h1 h2 h3 h4 h5
  simp [addRest, restDurationText, h1, h2, h3, h4, h5]

/-- Witness for `addRest_durationText_spec` at the type `"breve"`. -/
theorem addRest_durationText_spec_witness :
    ((("breve" : String) ≠ "32nd") ∧ ("breve" : String) ≠ "16th" ∧
      ("breve" : String) ≠ "eighth" ∧ ("breve" : String) ≠ "quarter" ∧
      ("breve" : String) ≠ "half") ∧
    addRest "breve" = MItem.restItem "breve" "" :=
  ⟨⟨by decide, by decide, by decide, by decide, by decide⟩,
   addRest_durationText_spec.2.1 "breve" (by decide) (by decide) (by decide)
     (by decide) (by decide)⟩

/-! ### Notes and the length table (`createLengthTable`) -/

/-- A note record: piano key, absolute tick position, raw tick length. -/
structure Note where
  key : Nat
  pos : Nat
  len : Nat
deriving DecidableEq

/-- A measure-tagged note, as stored in `patternNotes`: the note paired with
the measure number it was assigned to. -/
abbrev TNote := Note × Nat

/-- `nm` is correctly measure-tagged: its measure number is at least 1 and its
position lies inside that measure's tick window. -/
def measureTagged (nm : TNote) : Prop :=
  1 ≤ nm.2 ∧ (nm.2 - 1) * LMMS_MEASURE_LENGTH ≤ nm.1.pos ∧
    nm.1.pos < nm.2 * LMMS_MEASURE_LENGTH

instance (nm : TNote) : Decidable (measureTagged nm) := by
  unfold measureTagged; infer_instance

/-- Dictionary update `lengthTable[p] = v`. -/
def tset (t : Nat → Option Nat) (p v : Nat) : Nat → Option Nat :=
  fun q => if q = p then some v else t q


/-- The value `lengthTable[p]` holds for the current note after one iteration
of the `createLengthTable` loop.  The branch on `t nm.1.pos` mirrors
`if p in lengthTable`; a Python iteration that leaves an entry unchanged is
written here as re-storing the current value, which is pointwise equal.
In the recorded branch the nested update checks are flattened into one
conjunction; in the fresh branch the note is truncated first at the end of
its measure and then at the next note's distinct position. -/
def lengthTableStepVal (t : Nat → Option Nat) (nm : TNote) (next? : Option TNote) : Nat :=
  match t nm.1.pos with
  | some cur =>
    match next? with
    | some nx =>
        if nm.1.pos + nm.1.len > nx.1.pos ∧ nm.1.pos ≠ nx.1.pos ∧
            nx.1.pos - nm.1.pos < (if nm.1.len < cur then nm.1.len else cur) then
          nx.1.pos - nm.1.pos
        else if nm.1.len < cur then nm.1.len else cur
    | none => if nm.1.len < cur then nm.1.len else cur
  | none =>
    match next? with
    | some nx =>
        if nm.1.pos + (if nm.1.pos + nm.1.len > (nm.2 - 1) * LMMS_MEASURE_LENGTH + LMMS_MEASURE_LENGTH
              then (nm.2 - 1) * LMMS_MEASURE_LENGTH + LMMS_MEASURE_LENGTH - nm.1.pos
              else nm.1.len) > nx.1.pos ∧ nm.1.pos ≠ nx.1.pos then
          nx.1.pos - nm.1.pos
        else if nm.1.pos + nm.1.len > (nm.2 - 1) * LMMS_MEASURE_LENGTH + LMMS_MEASURE_LENGTH
          then (nm.2 - 1) * LMMS_MEASURE_LENGTH + LMMS_MEASURE_LENGTH - nm.1.pos
          else nm.1.len
    | none =>
        if nm.1.pos + nm.1.len > (nm.2 - 1) * LMMS_MEASURE_LENGTH + LMMS_MEASURE_LENGTH
          then (nm.2 - 1) * LMMS_MEASURE_LENGTH + LMMS_MEASURE_LENGTH - nm.1.pos
          else nm.1.len

/-- One iteration of the `createLengthTable` loop. -/
def lengthTableStep (t : Nat → Option Nat) (nm : TNote) (next? : Option TNote) :
    Nat → Option Nat :=
  tset t nm.1.pos (lengthTableStepVal t nm next?)

/-- The `createLengthTable` loop over the remaining notes; each iteration
looks one note ahead, as `notes[i+1]` does in the source. -/
def lengthTableGo (t : Nat → Option Nat) : List TNote → (Nat → Option Nat)
  | [] => t
  | nm :: rest => lengthTableGo (lengthTableStep t nm rest.head?) rest

/-- `createLengthTable(notes)`: effective length of the notes at each
occupied position. -/
def createLengthTable (notes : List TNote) : Nat → Option Nat :=
  lengthTableGo (fun _ => none) notes

/-- `p` holds a recorded entry of the length table of `notes`. -/
def posRecorded (notes : List TNote) (p : Nat) : Prop :=
  (createLengthTable notes p).isSome = true

instance (notes : List TNote) (p : Nat) : Decidable (posRecorded notes p) := by
  unfold posRecorded; infer_instance

theorem tset_same (t : Nat → Option Nat) (p v : Nat) : tset t p v p = some v := by
  simp [tset]

theorem tset_other (t : Nat → Option Nat) (p v q : Nat) (h : q ≠ p) : tset t p v q = t q := by
  simp [tset, h]

theorem lengthTableStep_other (t : Nat → Option Nat) (nm : TNote) (next? : Option TNote)
    (q : Nat) (h : q ≠ nm.1.pos) : lengthTableStep t nm next? q = t q := by
  simp [lengthTableStep, tset, h]

theorem lengthTableStep_self (t : Nat → Option Nat) (nm : TNote) (next? : Option TNote) :
    lengthTableStep t nm next? nm.1.pos = some (lengthTableStepVal t nm next?) := by
  simp [lengthTableStep, tset]

/-- The value stored for the current note never exceeds its raw length. -/
theorem lengthTableStepVal_le_len (t : Nat → Option Nat) (nm : TNote) (next? : Option TNote) :
    lengthTableStepVal t nm next? ≤ nm.1.len := by
  unfold lengthTableStepVal
  rcases ht : t nm.1.pos with _ | cur <;> rcases next? with _ | nx <;>
    simp only [LMMS_MEASURE_LENGTH] <;> split_ifs <;> omega

/-- If the position was already recorded, the step can only shrink its entry. -/
theorem lengthTableStepVal_le_cur (t : Nat → Option Nat) (nm : TNote) (next? : Option TNote)
    (cur : Nat) (ht : t nm.1.pos = some cur) :
    lengthTableStepVal t nm next? ≤ cur := by
  unfold lengthTableStepVal
  rw [ht]
  rcases next? with _ | nx <;> simp only [LMMS_MEASURE_LENGTH] <;> split_ifs <;> omega

/-- For a freshly recorded, correctly tagged note, the stored entry does not
reach past the end of the note's measure. -/
theorem lengthTableStepVal_measure (t : Nat → Option Nat) (nm : TNote) (next? : Option TNote)
    (ht : t nm.1.pos = none) (htag : measureTagged nm) :
    nm.1.pos + lengthTableStepVal t nm next? ≤ nm.2 * LMMS_MEASURE_LENGTH := by
  obtain ⟨h1, h2, h3⟩ := htag
  simp only [LMMS_MEASURE_LENGTH] at h1 h2 h3
  unfold lengthTableStepVal
  rw [ht]
  rcases next? with _ | nx <;> simp only [LMMS_MEASURE_LENGTH] <;> split_ifs <;> omega

/-- The stored entry never reaches past the next note's distinct position. -/
theorem lengthTableStepVal_next (t : Nat → Option Nat) (nm nx : TNote)
    (hlt : nm.1.pos < nx.1.pos) :
    nm.1.pos + lengthTableStepVal t nm (some nx) ≤ nx.1.pos := by
  have hne : nm.1.pos ≠ nx.1.pos := Nat.ne_of_lt hlt
  unfold lengthTableStepVal
  rcases ht : t nm.1.pos with _ | cur <;> simp only [LMMS_MEASURE_LENGTH] <;>
    split_ifs <;> omega

/-- Positions untouched by the remaining notes keep their entries. -/
theorem lengthTableGo_other (ns : List TNote) :
    ∀ (t : Nat → Option Nat) (q : Nat), (∀ nm ∈ ns, nm.1.pos ≠ q) →
      lengthTableGo t ns q = t q := by
  induction ns with
  | nil => intro t q _; rfl
  | cons nm rest ih =>
    intro t q h
    have hq : q ≠ nm.1.pos := fun he => (h nm (by simp)) he.symm
    rw [lengthTableGo, ih _ q (fun x hx => h x (by simp [hx]))]
    exact lengthTableStep_other t nm rest.head? q hq

/-- Entries only ever shrink while the loop runs. -/
theorem lengthTableGo_shrink (ns : List TNote) :
    ∀ (t : Nat → Option Nat) (q v : Nat), t q = some v →
      ∃ v2, lengthTableGo t ns q = some v2 ∧ v2 ≤ v := by
  induction ns with
  | nil => intro t q v h; exact ⟨v, h, Nat.le_refl v⟩
  | cons nm rest ih =>
    intro t q v h
    by_cases hq : q = nm.1.pos
    · have hstep := lengthTableStep_self t nm rest.head?
      have hle : lengthTableStepVal t nm rest.head? ≤ v :=
        lengthTableStepVal_le_cur t nm rest.head? v (hq ▸ h)
      rw [← hq] at hstep
      obtain ⟨v2, hv2, hv2le⟩ := ih (lengthTableStep t nm rest.head?) q _ hstep
      exact ⟨v2, hv2, Nat.le_trans hv2le hle⟩
    · have hstep : lengthTableStep t nm rest.head? q = some v := by
        rw [lengthTableStep_other t nm rest.head? q hq]; exact h
      exact ih _ q v hstep

/-- Domain of the finished table: exactly the previously recorded positions
plus the positions of the processed notes. -/
theorem lengthTableGo_isSome (ns : List TNote) :
    ∀ (t : Nat → Option Nat) (q : Nat),
      (lengthTableGo t ns q).isSome = true ↔
        (t q).isSome = true ∨ ∃ nm ∈ ns, nm.1.pos = q := by
  induction ns with
  | nil => intro t q; simp [lengthTableGo]
  | cons nm rest ih =>
    intro t q
    rw [lengthTableGo, ih]
    by_cases hq : q = nm.1.pos
    · rw [hq, lengthTableStep_self]
      simp
    · rw [lengthTableStep_other t nm rest.head? q hq]
      constructor
      · rintro (h | ⟨x, hx, hpx⟩)
        · exact Or.inl h
        · exact Or.inr ⟨x, by simp [hx], hpx⟩
      · rintro (h | ⟨x, hx, hpx⟩)
        · exact Or.inl h
        · rcases List.mem_cons.1 hx with he | hm
          · exact absurd (he ▸ hpx) (fun hh => hq hh.symm)
          · exact Or.inr ⟨x, hm, hpx⟩

/-- Invariant (a): every recorded entry stays within the measure implied by
its position. -/
theorem lengthTableGo_measure (ns : List TNote) :
    ∀ (t : Nat → Option Nat), (∀ nm ∈ ns, measureTagged nm) →
      (∀ p v, t p = some v → p + v ≤ (p / LMMS_MEASURE_LENGTH + 1) * LMMS_MEASURE_LENGTH) →
      ∀ p v, lengthTableGo t ns p = some v →
        p + v ≤ (p / LMMS_MEASURE_LENGTH + 1) * LMMS_MEASURE_LENGTH := by
  induction ns with
  | nil => intro t _ ht p v h; exact ht p v h
  | cons nm rest ih =>
    intro t htags ht p v h
    refine ih _ (fun x hx => htags x (by simp [hx])) ?_ p v h
    intro q w hq
    by_cases hqp : q = nm.1.pos
    · rw [hqp, lengthTableStep_self, Option.some_inj] at hq
      have htagnm : measureTagged nm := htags nm (by simp)
      rcases htcur : t nm.1.pos with _ | cur
      · have hb := lengthTableStepVal_measure t nm rest.head? htcur htagnm
        have hbd : nm.2 * LMMS_MEASURE_LENGTH =
            (nm.1.pos / LMMS_MEASURE_LENGTH + 1) * LMMS_MEASURE_LENGTH := by
          obtain ⟨m1, m2, m3⟩ := htagnm
          simp only [LMMS_MEASURE_LENGTH] at m1 m2 m3 ⊢
          have hm : nm.2 = nm.1.pos / 192 + 1 := by omega
          rw [hm]
        rw [hqp]
        omega
      · have hle := lengthTableStepVal_le_cur t nm rest.head? cur htcur
        have hold := ht nm.1.pos cur htcur
        rw [hqp]
        omega
    · rw [lengthTableStep_other t nm rest.head? q hqp] at hq
      exact ht q w hq

/-- Invariant (c): the finished entry at a note's position never exceeds that
note's raw length. -/
theorem lengthTableGo_le_len (ns : List TNote) :
    ∀ (t : Nat → Option Nat), ∀ nm ∈ ns, ∀ v,
      lengthTableGo t ns nm.1.pos = some v → v ≤ nm.1.len := by
  induction ns with
  | nil => intro t nm h; exact absurd h (List.not_mem_nil nm)
  | cons c rest ih =>
    intro t nm hmem v hv
    rw [lengthTableGo] at hv
    rcases List.mem_cons.1 hmem with he | hm
    · subst he
      have hstep := lengthTableStep_self t nm rest.head?
      have hval := lengthTableStepVal_le_len t nm rest.head?
      obtain ⟨v2, hv2, hv2le⟩ :=
        lengthTableGo_shrink rest (lengthTableStep t nm rest.head?) nm.1.pos _ hstep
      rw [hv, Option.some_inj] at hv2
      omega
    · exact ih _ nm hm v hv

/-- Invariant (b) at an adjacent pair: after the loop, the entry at `a`'s
position does not overlap the next distinct position `b`. -/
theorem lengthTableGo_adjacent (l1 : List TNote) :
    ∀ (t : Nat → Option Nat) (a b : TNote) (l2 : List TNote),
      a.1.pos < b.1.pos →
      ∃ v, lengthTableGo t (l1 ++ a :: b :: l2) a.1.pos = some v ∧ a.1.pos + v ≤ b.1.pos := by
  induction l1 with
  | nil =>
    intro t a b l2 hab
    rw [List.nil_append, lengthTableGo]
    simp only [List.head?_cons]
    have hstep := lengthTableStep_self t a (some b)
    have hnext := lengthTableStepVal_next t a b hab
    obtain ⟨v2, hv2, hv2le⟩ :=
      lengthTableGo_shrink (b :: l2) (lengthTableStep t a (some b)) a.1.pos _ hstep
    exact ⟨v2, hv2, by omega⟩
  | cons c l1' ih =>
    intro t a b l2 hab
    rw [List.cons_append, lengthTableGo]
    exact ih _ a b l2 hab

/-- In a position-sorted list, a position that occurs and is followed
somewhere by a strictly larger position has a last occurrence, adjacent to a
strictly larger one. -/
theorem exists_last_pos_split (p1 : Nat) (ns : List TNote) :
    List.Pairwise (fun x y : TNote => x.1.pos ≤ y.1.pos) ns →
    (∃ x ∈ ns, x.1.pos = p1) → (∃ y ∈ ns, p1 < y.1.pos) →
    ∃ l1 a b l2, ns = l1 ++ a :: b :: l2 ∧ a.1.pos = p1 ∧ p1 < b.1.pos := by
  induction ns with
  | nil =>
    intro _ hx _
    obtain ⟨x, hxm, _⟩ := hx
    exact absurd hxm (List.not_mem_nil x)
  | cons x xs ih =>
    intro hsort hx hy
    obtain ⟨hx1, hx2⟩ := List.pairwise_cons.1 hsort
    by_cases hxp : x.1.pos = p1
    · obtain ⟨y, hym, hylt⟩ := hy
      have hyxs : y ∈ xs := by
        rcases List.mem_cons.1 hym with he | hm
        · subst he; omega
        · exact hm
      rcases hxs : xs with _ | ⟨c, xs2⟩
      · rw [hxs] at hyxs; exact absurd hyxs (List.not_mem_nil y)
      subst hxs
      by_cases hcp : c.1.pos = p1
      · obtain ⟨l1, a, b, l2, heq, hha, hhb⟩ :=
          ih hx2 ⟨c, by simp, hcp⟩ ⟨y, hyxs, hylt⟩
        exact ⟨x :: l1, a, b, l2, by rw [List.cons_append, heq], hha, hhb⟩
      · have hcc : p1 < c.1.pos := by
          have := hx1 c (by simp)
          omega
        exact ⟨[], x, c, xs2, rfl, hxp, hcc⟩
    · obtain ⟨x0, hx0m, hx0⟩ := hx
      have hx0xs : x0 ∈ xs := by
        rcases List.mem_cons.1 hx0m with he | hm
        · subst he; exact absurd hx0 hxp
        · exact hm
      have hy2 : ∃ y ∈ xs, p1 < y.1.pos := by
        obtain ⟨y, hym, hylt⟩ := hy
        rcases List.mem_cons.1 hym with he | hm
        · subst he
          have := hx1 x0 hx0xs
          omega
        · exact ⟨y, hm, hylt⟩
      obtain ⟨l1, a, b, l2, heq, hha, hhb⟩ := ih hx2 ⟨x0, hx0xs, hx0⟩ hy2
      exact ⟨x :: l1, a, b, l2, by rw [List.cons_append, heq], hha, hhb⟩

/-- C1: for a sorted, measure-tagged note list, the length table satisfies
the three invariants: a recorded entry never crosses the boundary of the
measure its note is assigned to; the entry at a recorded position never
overlaps the next distinct recorded position; and the entry never exceeds the
raw length of any note occupying the position. -/
theorem createLengthTable_invariant (notes : List TNote)
    (hsort : List.Pairwise (fun x y : TNote => x.1.pos ≤ y.1.pos) notes)
    (htag : ∀ nm ∈ notes, measureTagged nm) :
    (∀ nm ∈ notes, ∀ v, createLengthTable notes nm.1.pos = some v →
        nm.1.pos + v ≤ nm.2 * LMMS_MEASURE_LENGTH)
    ∧ (∀ p1 p2 v1, posRecorded notes p1 → posRecorded notes p2 → p1 < p2 →
        (∀ q, p1 < q → q < p2 → ¬ posRecorded notes q) →
        createLengthTable notes p1 = some v1 → p1 + v1 ≤ p2)
    ∧ (∀ nm ∈ notes, ∀ v, createLengthTable notes nm.1.pos = some v → v ≤ nm.1.len) := by
  refine ⟨?_, ?_, ?_⟩
  · intro nm hmem v hv
    have hmeas := lengthTableGo_measure notes (fun _ => none) htag
      (fun p v h => absurd h (by simp)) nm.1.pos v hv
    obtain ⟨m1, m2, m3⟩ := htag nm hmem
    simp only [LMMS_MEASURE_LENGTH] at m1 m2 m3 hmeas ⊢
    have hm : nm.2 = nm.1.pos / 192 + 1 := by omega
    omega
  · intro p1 p2 v1 hr1 hr2 hlt hnone hv1
    have hrec : ∀ p : Nat, posRecorded notes p ↔ ∃ nm ∈ notes, nm.1.pos = p := by
      intro p
      unfold posRecorded createLengthTable
      rw [lengthTableGo_isSome]
      simp
    obtain ⟨a0, ha0m, ha0⟩ := (hrec p1).1 hr1
    obtain ⟨y0, hy0m, hy0⟩ := (hrec p2).1 hr2
    obtain ⟨l1, a, b, l2, heq, hha, hhb⟩ :=
      exists_last_pos_split p1 notes hsort ⟨a0, ha0m, ha0⟩ ⟨y0, hy0m, by omega⟩
    have hsort2 := heq ▸ hsort
    obtain ⟨hpl1, hpresid, hcross⟩ := List.pairwise_append.1 hsort2
    obtain ⟨hac, hpresid2⟩ := List.pairwise_cons.1 hpresid
    obtain ⟨hbc, _⟩ := List.pairwise_cons.1 hpresid2
    have hble : b.1.pos ≤ p2 := by
      have hy0in : y0 ∈ l1 ++ a :: b :: l2 := heq ▸ hy0m
      rcases List.mem_append.1 hy0in with hin | hin
      · have := hcross y0 hin a (by simp)
        omega
      · rcases List.mem_cons.1 hin with he | hin2
        · subst he; omega
        · rcases List.mem_cons.1 hin2 with he | hin3
          · subst he; omega
          · have := hbc y0 hin3
            omega
    have hbrec : posRecorded notes b.1.pos :=
      (hrec b.1.pos).2 ⟨b, heq ▸ (by simp : b ∈ l1 ++ a :: b :: l2), rfl⟩
    have hbp2 : b.1.pos = p2 := by
      by_contra hne
      exact hnone b.1.pos hhb (by omega) hbrec
    obtain ⟨v, hvgo, hvle⟩ :=
      lengthTableGo_adjacent l1 (fun _ => none) a b l2 (by omega)
    have hvgo2 : createLengthTable notes a.1.pos = some v := by
      unfold createLengthTable
      rw [heq]
      exact hvgo
    rw [hha] at hvgo2
    rw [hvgo2, Option.some_inj] at hv1
    omega
  · intro nm hmem v hv
    exact lengthTableGo_le_len notes (fun _ => none) nm hmem v hv

/-- Concrete sorted, measure-tagged input for the C1 witness: a long note at
position 0 truncated by a note at position 1. -/
def c1WitnessNotes : List TNote :=
  [({ key := 60, pos := 0, len := 100 }, 1), ({ key := 62, pos := 1, len := 50 }, 1)]

/-- Witness for `createLengthTable_invariant`: on `c1WitnessNotes` the entry
at position 0 is 1 and does not overlap position 1. -/
theorem createLengthTable_invariant_witness :
    (List.Pairwise (fun x y : TNote => x.1.pos ≤ y.1.pos) c1WitnessNotes ∧
      (∀ nm ∈ c1WitnessNotes, measureTagged nm)) ∧
    createLengthTable c1WitnessNotes 0 = some 1 ∧ 0 + 1 ≤ 1 :=
  ⟨⟨by decide, by decide⟩, by decide,
    (createLengthTable_invariant c1WitnessNotes (by decide) (by decide)).2.1 0 1 1
      (by decide) (by decide) (by decide)
      (fun q hq1 hq2 => absurd hq2 (by omega)) (by decide)⟩

/-! ### Pattern flattening and measure tagging (`patternNotes`) -/

/-- A pattern chunk of a track: its own absolute position and the notes with
chunk-relative positions. -/
structure Chunk where
  pos : Nat
  notes : List Note
deriving DecidableEq

/-- The measure counter update applied to each note during flattening: stay,
step to the next measure, or jump via `ceil(newPos / 192) + 1`. -/
def stepMeasure (measureNum newPos : Nat) : Nat :=
  if measureNum * LMMS_MEASURE_LENGTH ≤ newPos then
    if newPos < (measureNum + 1) * LMMS_MEASURE_LENGTH then measureNum + 1
    else (newPos + (LMMS_MEASURE_LENGTH - 1)) / LMMS_MEASURE_LENGTH + 1
  else measureNum

/-- Flattening one chunk: rewrite each note position to chunk position plus
note position, update the running measure counter, and tag the note. -/
def tagChunkNotes (chunkPos : Nat) : Nat → List Note → List TNote
  | _, [] => []
  | m, n :: rest =>
    ({ n with pos := chunkPos + n.pos }, stepMeasure m (chunkPos + n.pos)) ::
      tagChunkNotes chunkPos (stepMeasure m (chunkPos + n.pos)) rest

/-- `patternNotes`: all chunks flattened to absolute positions and tagged
with measure numbers; each chunk starts its counter at
`chunkPos / 192 + 1`. -/
def patternNotes (chunks : List Chunk) : List TNote :=
  chunks.flatMap (fun c => tagChunkNotes c.pos (c.pos / LMMS_MEASURE_LENGTH + 1) c.notes)

/-- Stable insertion by position: a note is inserted before the first note
whose position is not strictly smaller, so notes with equal positions keep
their original relative order. -/
def insertPos (x : TNote) : List TNote → List TNote
  | [] => [x]
  | y :: ys => if y.1.pos < x.1.pos then y :: insertPos x ys else x :: y :: ys

/-- Python's stable `sorted(..., key pos)`, modelled as a stable insertion
sort. -/
def sortNotes (l : List TNote) : List TNote := l.foldr insertPos []

theorem insertPos_of_le (x : TNote) (l : List TNote)
    (h : ∀ y ∈ l, x.1.pos ≤ y.1.pos) : insertPos x l = x :: l := by
  cases l with
  | nil => rfl
  | cons y ys =>
    have : ¬ (y.1.pos < x.1.pos) := by
      have := h y (by simp)
      omega
    rw [insertPos, if_neg this]

/-- Sorting a list that is already position-sorted leaves it unchanged. -/
theorem sortNotes_eq_self (l : List TNote)
    (h : List.Pairwise (fun a b : TNote => a.1.pos ≤ b.1.pos) l) : sortNotes l = l := by
  induction l with
  | nil => rfl
  | cons a rest ih =>
    obtain ⟨h1, h2⟩ := List.pairwise_cons.1 h
    show insertPos a (sortNotes rest) = a :: rest
    rw [ih h2]
    exact insertPos_of_le a rest h1

theorem chain'_posle_le_all (l : List TNote) :
    ∀ x : TNote, List.Chain' (fun a b : TNote => a.1.pos ≤ b.1.pos) (x :: l) →
      ∀ y ∈ l, x.1.pos ≤ y.1.pos := by
  induction l with
  | nil => intro x _ y hy; exact absurd hy (List.not_mem_nil y)
  | cons z zs ih =>
    intro x hc y hy
    obtain ⟨hxz, hc2⟩ := List.chain'_cons.1 hc
    rcases List.mem_cons.1 hy with he | hm
    · subst he; exact hxz
    · exact Nat.le_trans hxz (ih z hc2 y hm)

theorem chain'_posle_pairwise (l : List TNote)
    (h : List.Chain' (fun a b : TNote => a.1.pos ≤ b.1.pos) l) :
    List.Pairwise (fun a b : TNote => a.1.pos ≤ b.1.pos) l := by
  induction l with
  | nil => exact List.Pairwise.nil
  | cons x xs ih =>
    refine List.pairwise_cons.2 ⟨chain'_posle_le_all xs x h, ih ?_⟩
    exact (List.chain'_cons'.1 h).2

theorem stepMeasure_ge (m q : Nat) : m ≤ stepMeasure m q := by
  unfold stepMeasure
  simp only [LMMS_MEASURE_LENGTH]
  split_ifs <;> omega

theorem stepMeasure_ub (m q : Nat) : q < stepMeasure m q * LMMS_MEASURE_LENGTH := by
  unfold stepMeasure
  simp only [LMMS_MEASURE_LENGTH]
  split_ifs <;> omega

theorem stepMeasure_arrival (m q : Nat)
    (h : m ≤ (q + (LMMS_MEASURE_LENGTH - 1)) / LMMS_MEASURE_LENGTH + 1) :
    stepMeasure m q ≤ (q + (LMMS_MEASURE_LENGTH - 1)) / LMMS_MEASURE_LENGTH + 1 := by
  unfold stepMeasure
  simp only [LMMS_MEASURE_LENGTH] at h ⊢
  split_ifs <;> omega

/-- Unconditional membership facts about one flattened chunk: tags never drop
below the incoming counter and positions are chunk position plus a note
position. -/
theorem tagChunkNotes_mem (cp : Nat) (ns : List Note) :
    ∀ m : Nat, ∀ nm ∈ tagChunkNotes cp m ns,
      m ≤ nm.2 ∧ ∃ n ∈ ns, nm.1.pos = cp + n.pos := by
  induction ns with
  | nil => intro m nm h; exact absurd h (List.not_mem_nil nm)
  | cons n rest ih =>
    intro m nm hmem
    rcases List.mem_cons.1 hmem with he | hm
    · subst he
      exact ⟨stepMeasure_ge m (cp + n.pos), ⟨n, by simp, rfl⟩⟩
    · obtain ⟨h1, n2, hn2, hp⟩ := ih (stepMeasure m (cp + n.pos)) nm hm
      exact ⟨Nat.le_trans (stepMeasure_ge m (cp + n.pos)) h1, ⟨n2, by simp [hn2], hp⟩⟩

/-- Tags inside one flattened chunk never decrease. -/
theorem tagChunkNotes_chain_tag (cp : Nat) (ns : List Note) :
    ∀ m : Nat, List.Chain' (fun a b : TNote => a.2 ≤ b.2) (tagChunkNotes cp m ns) := by
  induction ns with
  | nil => intro m; exact List.chain'_nil
  | cons n rest ih =>
    intro m
    rw [tagChunkNotes, List.chain'_cons']
    refine ⟨?_, ih _⟩
    intro y hy
    exact (tagChunkNotes_mem cp rest _ y (List.mem_of_mem_head? hy)).1

theorem chain'_note_le_all (l : List Note) :
    ∀ x : Note, List.Chain' (fun a b : Note => a.pos ≤ b.pos) (x :: l) →
      ∀ y ∈ l, x.pos ≤ y.pos := by
  induction l with
  | nil => intro x _ y hy; exact absurd hy (List.not_mem_nil y)
  | cons z zs ih =>
    intro x hc y hy
    obtain ⟨hxz, hc2⟩ := List.chain'_cons.1 hc
    rcases List.mem_cons.1 hy with he | hm
    · subst he; exact hxz
    · exact Nat.le_trans hxz (ih z hc2 y hm)

/-- Positions inside one flattened chunk are non-decreasing when the chunk's
notes are sorted by relative position. -/
theorem tagChunkNotes_chain_pos (cp : Nat) (ns : List Note) :
    ∀ m : Nat, List.Chain' (fun a b : Note => a.pos ≤ b.pos) ns →
      List.Chain' (fun a b : TNote => a.1.pos ≤ b.1.pos) (tagChunkNotes cp m ns) := by
  induction ns with
  | nil => intro m _; exact List.chain'_nil
  | cons n rest ih =>
    intro m hc
    have htl : List.Chain' (fun a b : Note => a.pos ≤ b.pos) rest :=
      (List.chain'_cons'.1 hc).2
    rw [tagChunkNotes, List.chain'_cons']
    refine ⟨?_, ih _ htl⟩
    intro y hy
    obtain ⟨_, n2, hn2, hp⟩ :=
      tagChunkNotes_mem cp rest _ y (List.mem_of_mem_head? hy)
    have hle : n.pos ≤ n2.pos := chain'_note_le_all rest n hc n2 hn2
    simp only [hp]
    omega

/-- Per-note postcondition of the measure counter: each tagged note sits
strictly before the end of its assigned measure, and the assigned measure is
at most `ceil(pos / 192) + 1`. -/
theorem tagChunkNotes_post (cp : Nat) (ns : List Note) :
    ∀ m : Nat,
      (∀ n0 ∈ ns.head?, m ≤ (cp + n0.pos + (LMMS_MEASURE_LENGTH - 1)) / LMMS_MEASURE_LENGTH + 1) →
      List.Chain' (fun a b : Note => a.pos ≤ b.pos) ns →
      ∀ nm ∈ tagChunkNotes cp m ns,
        nm.1.pos < nm.2 * LMMS_MEASURE_LENGTH ∧
        nm.2 ≤ (nm.1.pos + (LMMS_MEASURE_LENGTH - 1)) / LMMS_MEASURE_LENGTH + 1 := by
  induction ns with
  | nil => intro m _ _ nm h; exact absurd h (List.not_mem_nil nm)
  | cons n rest ih =>
    intro m harr hc nm hmem
    have harr0 : m ≤ (cp + n.pos + (LMMS_MEASURE_LENGTH - 1)) / LMMS_MEASURE_LENGTH + 1 :=
      harr n rfl
    have hstep := stepMeasure_arrival m (cp + n.pos) harr0
    rcases List.mem_cons.1 hmem with he | hm
    · subst he
      exact ⟨stepMeasure_ub m (cp + n.pos), hstep⟩
    · refine ih (stepMeasure m (cp + n.pos)) ?_ (List.chain'_cons'.1 hc).2 nm hm
      intro n1 hn1
      have hle : n.pos ≤ n1.pos :=
        chain'_note_le_all rest n hc n1 (List.mem_of_mem_head? hn1)
      simp only [LMMS_MEASURE_LENGTH] at hstep ⊢
      omega

theorem chain'_chunk_le_all (l : List Chunk) :
    ∀ x : Chunk, List.Chain' (fun a b : Chunk => a.pos ≤ b.pos) (x :: l) →
      ∀ y ∈ l, x.pos ≤ y.pos := by
  induction l with
  | nil => intro x _ y hy; exact absurd hy (List.not_mem_nil y)
  | cons z zs ih =>
    intro x hc y hy
    obtain ⟨hxz, hc2⟩ := List.chain'_cons.1 hc
    rcases List.mem_cons.1 hy with he | hm
    · subst he; exact hxz
    · exact Nat.le_trans hxz (ih z hc2 y hm)

/-- Every element of `patternNotes` descends from some chunk: its tag is at
least that chunk's starting counter and its position is the chunk position
plus a note position. -/
theorem patternNotes_mem (cs : List Chunk) (nm : TNote) (h : nm ∈ patternNotes cs) :
    ∃ c ∈ cs, c.pos / LMMS_MEASURE_LENGTH + 1 ≤ nm.2 ∧
      ∃ n ∈ c.notes, nm.1.pos = c.pos + n.pos := by
  rw [patternNotes, List.mem_flatMap] at h
  obtain ⟨c, hc, hmem⟩ := h
  obtain ⟨h1, n, hn, hp⟩ := tagChunkNotes_mem c.pos c.notes _ nm hmem
  exact ⟨c, hc, h1, n, hn, hp⟩

/-- Pre-sort facts about the flattened, tagged note list: positions and tags
are non-decreasing and each tag obeys the per-note window bounds. -/
theorem patternNotes_chains (chunks : List Chunk)
    (hpos : ∀ c ∈ chunks, c.pos % LMMS_MEASURE_LENGTH = 0)
    (hsorted : ∀ c ∈ chunks, List.Chain' (fun a b : Note => a.pos ≤ b.pos) c.notes)
    (hsep : List.Chain' (fun a b : Chunk =>
        a.pos ≤ b.pos ∧ ∀ n ∈ a.notes, a.pos + n.pos ≤ b.pos) chunks) :
    List.Chain' (fun a b : TNote => a.1.pos ≤ b.1.pos) (patternNotes chunks) ∧
    List.Chain' (fun a b : TNote => a.2 ≤ b.2) (patternNotes chunks) ∧
    ∀ nm ∈ patternNotes chunks,
      nm.1.pos < nm.2 * LMMS_MEASURE_LENGTH ∧
      nm.2 ≤ (nm.1.pos + (LMMS_MEASURE_LENGTH - 1)) / LMMS_MEASURE_LENGTH + 1 := by
  induction chunks with
  | nil =>
    refine ⟨List.chain'_nil, List.chain'_nil, ?_⟩
    intro nm h
    simp [patternNotes] at h
  | cons c cs ih =>
    have hpos_c : c.pos % LMMS_MEASURE_LENGTH = 0 := hpos c (by simp)
    have hsorted_c := hsorted c (by simp)
    obtain ⟨hhd, hsep2⟩ := List.chain'_cons'.1 hsep
    obtain ⟨ihpos, ihtag, ihpost⟩ :=
      ih (fun x hx => hpos x (by simp [hx])) (fun x hx => hsorted x (by simp [hx])) hsep2
    have harr : ∀ n0 ∈ c.notes.head?,
        c.pos / LMMS_MEASURE_LENGTH + 1 ≤
          (c.pos + n0.pos + (LMMS_MEASURE_LENGTH - 1)) / LMMS_MEASURE_LENGTH + 1 := by
      intro n0 _
      simp only [LMMS_MEASURE_LENGTH]
      omega
    have heq : patternNotes (c :: cs) =
        tagChunkNotes c.pos (c.pos / LMMS_MEASURE_LENGTH + 1) c.notes ++ patternNotes cs := by
      rw [patternNotes, List.flatMap_cons]
      rfl
    have hfpost := tagChunkNotes_post c.pos c.notes (c.pos / LMMS_MEASURE_LENGTH + 1) harr hsorted_c
    -- facts about a last element of the chunk part against a head of the rest
    have hlink : ∀ x ∈ (tagChunkNotes c.pos (c.pos / LMMS_MEASURE_LENGTH + 1) c.notes).getLast?,
        ∀ y ∈ (patternNotes cs).head?, x.1.pos ≤ y.1.pos ∧ x.2 ≤ y.2 := by
      intro x hx y hy
      have hxmem := List.mem_of_mem_getLast? hx
      have hymem := List.mem_of_mem_head? hy
      obtain ⟨_, n, hn, hxp⟩ := tagChunkNotes_mem c.pos c.notes _ x hxmem
      obtain ⟨hx1, hx2⟩ := hfpost x hxmem
      obtain ⟨d, hd, hdtag, n2, hn2, hyp⟩ := patternNotes_mem cs y hymem
      rcases hcs : cs with _ | ⟨c2, cs2⟩
      · rw [hcs] at hd; exact absurd hd (List.not_mem_nil d)
      subst hcs
      obtain ⟨hcc2, hnotes⟩ := hhd c2 rfl
      have hxc2 : x.1.pos ≤ c2.pos := hxp ▸ hnotes n hn
      have hc2d : c2.pos ≤ d.pos := by
        have hchain : List.Chain' (fun a b : Chunk => a.pos ≤ b.pos) (c2 :: cs2) :=
          hsep2.imp (fun a b hab => hab.1)
        rcases List.mem_cons.1 hd with he | hm
        · rw [he]
        · exact chain'_chunk_le_all cs2 c2 hchain d hm
      have hc2pos : c2.pos % LMMS_MEASURE_LENGTH = 0 := hpos c2 (by simp)
      constructor
      · have : d.pos ≤ y.1.pos := by omega
        omega
      · simp only [LMMS_MEASURE_LENGTH] at hx2 hdtag hc2pos ⊢
        omega
    refine ⟨?_, ?_, ?_⟩
    · rw [heq]
      refine List.chain'_append.2 ⟨tagChunkNotes_chain_pos c.pos c.notes _ hsorted_c, ihpos, ?_⟩
      intro x hx y hy
      exact (hlink x hx y hy).1
    · rw [heq]
      refine List.chain'_append.2 ⟨tagChunkNotes_chain_tag c.pos c.notes _, ihtag, ?_⟩
      intro x hx y hy
      exact (hlink x hx y hy).2
    · rw [heq]
      intro nm hmem
      rcases List.mem_append.1 hmem with hm | hm
      · exact hfpost nm hm
      · exact ihpost nm hm

/-- C3: for chunks that start on multiples of 192, hold their notes in
position order, and do not overlap the following chunk, the flattened and
sorted note list is unchanged by sorting, its measure tags are monotone
non-decreasing, and a note at position exactly `k * 192` is tagged with
measure `k + 1`. -/
theorem patternNotes_measure_spec (chunks : List Chunk)
    (hpos : ∀ c ∈ chunks, c.pos % LMMS_MEASURE_LENGTH = 0)
    (hsorted : ∀ c ∈ chunks, List.Chain' (fun a b : Note => a.pos ≤ b.pos) c.notes)
    (hsep : List.Chain' (fun a b : Chunk =>
        a.pos ≤ b.pos ∧ ∀ n ∈ a.notes, a.pos + n.pos ≤ b.pos) chunks) :
    sortNotes (patternNotes chunks) = patternNotes chunks ∧
    List.Chain' (fun a b : TNote => a.1.pos ≤ b.1.pos) (sortNotes (patternNotes chunks)) ∧
    List.Chain' (fun a b : TNote => a.2 ≤ b.2) (sortNotes (patternNotes chunks)) ∧
    ∀ nm ∈ sortNotes (patternNotes chunks), ∀ k : Nat,
      nm.1.pos = k * LMMS_MEASURE_LENGTH → nm.2 = k + 1 := by
  obtain ⟨hchpos, hchtag, hpost⟩ := patternNotes_chains chunks hpos hsorted hsep
  have heq : sortNotes (patternNotes chunks) = patternNotes chunks :=
    sortNotes_eq_self _ (chain'_posle_pairwise _ hchpos)
  refine ⟨heq, ?_, ?_, ?_⟩
  · rw [heq]; exact hchpos
  · rw [heq]; exact hchtag
  rw [heq]
  intro nm hmem k hk
  obtain ⟨h1, h2⟩ := hpost nm hmem
  rw [hk] at h1 h2
  simp only [LMMS_MEASURE_LENGTH] at h1 h2 ⊢
  omega

/-- Concrete chunk list for the C3 witness: two chunks, the second starting
at `384 = 2 * 192` with a note at relative position 0. -/
def c3WitnessChunks : List Chunk :=
  [{ pos := 0, notes := [{ key := 60, pos := 0, len := 48 }, { key := 62, pos := 200, len := 48 }] },
   { pos := 384, notes := [{ key := 64, pos := 0, len := 48 }] }]

/-- Witness for `patternNotes_measure_spec`: the note at absolute position
`384 = 2 * 192` is tagged with measure `3 = 2 + 1`. -/
theorem patternNotes_measure_spec_witness :
    ((∀ c ∈ c3WitnessChunks, c.pos % LMMS_MEASURE_LENGTH = 0) ∧
      (∀ c ∈ c3WitnessChunks, List.Chain' (fun a b : Note => a.pos ≤ b.pos) c.notes) ∧
      List.Chain' (fun a b : Chunk =>
        a.pos ≤ b.pos ∧ ∀ n ∈ a.notes, a.pos + n.pos ≤ b.pos) c3WitnessChunks) ∧
    (({ key := 64, pos := 384, len := 48 }, 3) : TNote) ∈
      sortNotes (patternNotes c3WitnessChunks) ∧
    (({ key := 64, pos := 384, len := 48 }, 3) : TNote).2 = 2 + 1 := by
  have hpos : ∀ c ∈ c3WitnessChunks, c.pos % LMMS_MEASURE_LENGTH = 0 := by decide
  have hsorted : ∀ c ∈ c3WitnessChunks,
      List.Chain' (fun a b : Note => a.pos ≤ b.pos) c.notes := by
    intro c hc
    simp only [c3WitnessChunks, List.mem_cons, List.not_mem_nil, or_false] at hc
    rcases hc with h | h <;> subst h <;>
      simp [List.chain'_cons, List.chain'_singleton]
  have hsep : List.Chain' (fun a b : Chunk =>
      a.pos ≤ b.pos ∧ ∀ n ∈ a.notes, a.pos + n.pos ≤ b.pos) c3WitnessChunks := by
    simp only [c3WitnessChunks, List.chain'_cons, List.chain'_singleton, and_true]
    refine ⟨by norm_num, ?_⟩
    intro n hn
    simp only [List.mem_cons, List.not_mem_nil, or_false] at hn
    rcases hn with h | h <;> subst h <;> norm_num
  refine ⟨⟨hpos, hsorted, hsep⟩, by decide, ?_⟩
  exact (patternNotes_measure_spec c3WitnessChunks hpos hsorted hsep).2.2.2
    ({ key := 64, pos := 384, len := 48 }, 3) (by decide) 2 (by decide)

/-! ### The layout driver: one part (`addNote`, measures, the note loop) -/

/-- Dictionary lookup `lengthTable[position]`; the driver only ever looks up
positions that the table records, so the default is never observable in the
embedded runs. -/
def lookupLen (table : Nat → Option Nat) (p : Nat) : Nat := (table p).getD 0

/-- `addNote(parentNode, note, isChord, lengthTable)` with a length table
supplied (the driver always supplies one): pitch step and sharp alteration
from `NOTES`, octave `key / 12`, duration `noteLength / 6` and type, where
`noteLength` is the corrected length
`NOTE_TYPE[findClosestNoteType(lengthTable[position])]`. -/
def addNote (table : Nat → Option Nat) (isChord : Bool) (note : Note) : MItem :=
  MItem.noteItem isChord ((NOTES (note.key % 12)).take 1)
    ((NOTES (note.key % 12)).drop 1 == "#") (note.key / 12)
    (NOTE_TYPE (findClosestNoteType (lookupLen table note.pos)) / 6)
    (findClosestNoteType (NOTE_TYPE (findClosestNoteType (lookupLen table note.pos))))

/-- A measure node: its number, its clef attribute block if it is a first
measure, and its notation items. -/
structure Measure where
  num : Nat
  clef? : Option String
  items : List MItem
deriving DecidableEq

/-- State of the per-part layout loop. -/
structure PartState where
  done : List Measure
  curr : Measure
  lastMeasureNum : Nat
  positionsSeen : List Nat
deriving DecidableEq

/-- The measures of a part in document order: the closed ones followed by the
currently open one. -/
def measuresOf (s : PartState) : List Measure := s.done ++ [s.curr]

/-- Append notation items to the currently open measure. -/
def appendItems (s : PartState) (its : List MItem) : PartState :=
  { s with curr := { s.curr with items := s.curr.items ++ its } }

/-- Emit the rests of a `getRests` result in its (insertion) iteration
order, `count` copies of each type. -/
def restItemsOf (l : List (String × Nat)) : List MItem :=
  l.flatMap (fun tc => List.replicate tc.2 (addRest tc.1))

/-- `addRestMeasure`: a full-measure rest node (duration text `"32"`). -/
def restMeasureNode (n : Nat) : Measure :=
  { num := n, clef? := none, items := [MItem.measureRest "32"] }

/-- `createFirstMeasure`: carries the attribute block (clef recorded here),
plus a full-measure rest when `isRest`. -/
def createFirstMeasure (clefType : String) (measureCounter : Nat) (isRest : Bool) : Measure :=
  { num := measureCounter, clef? := some clefType,
    items := if isRest then [MItem.measureRest "32"] else [] }

/-- Clef selection: bass for instruments in `BASS_INSTRUMENTS`, else
treble. -/
def clefFor (name : String) : String :=
  if name ∈ BASS_INSTRUMENTS then "bass" else "treble"

/-- Initialization of a part before the note loop: open measure 1 directly
when the first note is in measure 1, otherwise emit leading whole-rest
measures `1 .. m1-1` (the first of which carries the attribute block) and
open measure `m1`.  (`m1 = 0` cannot arise from `patternNotes` but is kept
faithful to the source: no leading rest measures, open measure 0.) -/
def initPart (name : String) (m1 : Nat) : PartState :=
  if m1 = 1 then
    { done := [], curr := createFirstMeasure (clefFor name) 1 false,
      lastMeasureNum := 1, positionsSeen := [] }
  else if m1 = 0 then
    { done := [], curr := { num := 0, clef? := none, items := [] },
      lastMeasureNum := 0, positionsSeen := [] }
  else
    { done := createFirstMeasure (clefFor name) 1 true ::
        (List.range' 2 (m1 - 2)).map restMeasureNode,
      curr := { num := m1, clef? := none, items := [] },
      lastMeasureNum := m1, positionsSeen := [] }

/-- Close the open measure. -/
def pushCurr (s : PartState) : PartState := { s with done := s.done ++ [s.curr] }

/-- Emit `k` whole-rest measures numbered `base+1 .. base+k`. -/
def addTrailingRestMeasures (s : PartState) (base k : Nat) : PartState :=
  { s with done := s.done ++ (List.range k).map (fun i => restMeasureNode (base + i + 1)) }

/-- Open a new (attribute-free) measure. -/
def openMeasure (s : PartState) (n : Nat) : PartState :=
  { s with curr := { num := n, clef? := none, items := [] } }

/-- The chord-or-rests-then-note block shared by both measure branches of the
loop: a note at a seen position becomes a chord item; otherwise the rest gap
is decomposed and emitted, the position is recorded, and the primary note is
emitted. -/
def addNoteBlock (table : Nat → Option Nat) (note : Note) (restGap : Nat)
    (s : PartState) : PartState :=
  if note.pos ∈ s.positionsSeen then
    appendItems s [addNote table true note]
  else
    appendItems
      { appendItems s (restItemsOf (getRests restGap)) with
        positionsSeen := note.pos :: s.positionsSeen }
      [addNote table false note]

/-- End-of-measure padding: when the next note belongs to a later measure (or
there is no next note), fill the rest of the measure with decomposed rests. -/
def padMeasure (table : Nat → Option Nat) (nm : TNote) (next? : Option TNote)
    (s : PartState) : PartState :=
  match next? with
  | some nx =>
      if nm.2 < nx.2 then
        appendItems s (restItemsOf (getRests (nm.2 * LMMS_MEASURE_LENGTH -
          (nm.1.pos + NOTE_TYPE (findClosestNoteType (lookupLen table nm.1.pos))))))
      else s
  | none =>
      appendItems s (restItemsOf (getRests (nm.2 * LMMS_MEASURE_LENGTH -
        (nm.1.pos + NOTE_TYPE (findClosestNoteType (lookupLen table nm.1.pos))))))

/-- One iteration of the per-part note loop (`for k in range(0, len(notes))`):
the same-measure branch adds the chord-or-rests-then-note block and pads; the
new-measure branch (only reachable with a previous note) closes the open
measure, emits skipped whole-rest measures, opens the new measure, and then
does the same; finally `lastMeasureNum` (and the part's measure record) is
set to the note's measure. -/
def noteStep (table : Nat → Option Nat) (prev? : Option TNote) (nm : TNote)
    (next? : Option TNote) (s : PartState) : PartState :=
  let s1 :=
    if s.lastMeasureNum = nm.2 then
      padMeasure table nm next?
        (addNoteBlock table nm.1
          (match prev? with
           | some pv => nm.1.pos -
               (pv.1.pos + NOTE_TYPE (findClosestNoteType (lookupLen table pv.1.pos)))
           | none => nm.1.pos - (nm.2 - 1) * LMMS_MEASURE_LENGTH) s)
    else
      match prev? with
      | some pv =>
          padMeasure table nm next?
            (addNoteBlock table nm.1 (nm.1.pos - (nm.2 - 1) * LMMS_MEASURE_LENGTH)
              (openMeasure
                (addTrailingRestMeasures (pushCurr s) pv.2 (nm.2 - s.lastMeasureNum - 1))
                nm.2))
      | none => s
  { s1 with lastMeasureNum := nm.2 }

/-- The per-part note loop, carrying the previous note and looking one note
ahead. -/
def layoutNotes (table : Nat → Option Nat) :
    PartState → Option TNote → List TNote → PartState
  | s, _, [] => s
  | s, prev?, nm :: rest => layoutNotes table (noteStep table prev? nm rest.head? s) (some nm) rest

/-- Layout of one instrument part: build the length table, initialize from
the first note's measure, run the loop; the result is the measures in order
and the part's final measure number (`partMeasures` entry). -/
def layoutPart (name : String) (notes : List TNote) : List Measure × Nat :=
  match notes with
  | [] => ([], 0)
  | n0 :: _ =>
    let s := layoutNotes (createLengthTable notes) (initPart name n0.2) none notes
    (s.done ++ [s.curr], s.lastMeasureNum)

/-! ### Note-item structure of a laid-out part (chord detection, C4) -/

/-- Is the item a pitched note (as opposed to a rest)? -/
def isNoteItem : MItem → Bool
  | MItem.noteItem _ _ _ _ _ _ => true
  | _ => false

/-- The pitched-note items of a measure list, in document order. -/
def noteItems (ms : List Measure) : List MItem :=
  (ms.flatMap (fun m => m.items)).filter isNoteItem

/-- The note items the loop is expected to emit for the remaining notes,
given the set of positions already seen: one item per note, a chord item
exactly when the position was seen before, always using the length table for
duration and type. -/
def expectedNotes (table : Nat → Option Nat) : List Nat → List TNote → List MItem
  | _, [] => []
  | seen, nm :: rest =>
    addNote table (decide (nm.1.pos ∈ seen)) nm.1 ::
      expectedNotes table (if nm.1.pos ∈ seen then seen else nm.1.pos :: seen) rest

theorem noteItems_append (a b : List Measure) :
    noteItems (a ++ b) = noteItems a ++ noteItems b := by
  simp [noteItems, List.flatMap_append, List.filter_append]

theorem filter_replicate_addRest (n : Nat) (t : String) :
    (List.replicate n (addRest t)).filter isNoteItem = [] := by
  induction n with
  | zero => rfl
  | succ k ih => simp [List.replicate_succ, addRest, isNoteItem, ih]

theorem restItemsOf_filter (l : List (String × Nat)) :
    (restItemsOf l).filter isNoteItem = [] := by
  induction l with
  | nil => rfl
  | cons tc rest ih =>
    simp [restItemsOf, List.flatMap_cons, List.filter_append,
      filter_replicate_addRest, ih] at ih ⊢
    exact ih

theorem noteItems_appendItems (s : PartState) (its : List MItem) :
    noteItems (measuresOf (appendItems s its)) =
      noteItems (measuresOf s) ++ its.filter isNoteItem := by
  simp [measuresOf, appendItems, noteItems, List.flatMap_append, List.filter_append]

theorem measuresOf_setSeen (s : PartState) (p : List Nat) :
    measuresOf { s with positionsSeen := p } = measuresOf s := rfl

theorem addNoteBlock_noteItems (table : Nat → Option Nat) (note : Note) (gap : Nat)
    (s : PartState) :
    noteItems (measuresOf (addNoteBlock table note gap s)) =
      noteItems (measuresOf s) ++ [addNote table (decide (note.pos ∈ s.positionsSeen)) note] := by
  unfold addNoteBlock
  by_cases h : note.pos ∈ s.positionsSeen
  · rw [if_pos h]
    simp [noteItems_appendItems, addNote, isNoteItem, h]
  · rw [if_neg h]
    have h2 : noteItems (measuresOf
        { appendItems s (restItemsOf (getRests gap)) with
          positionsSeen := note.pos :: s.positionsSeen }) = noteItems (measuresOf s) := by
      rw [measuresOf_setSeen, noteItems_appendItems, restItemsOf_filter, List.append_nil]
    rw [noteItems_appendItems, h2]
    simp [addNote, isNoteItem, h]

theorem addNoteBlock_seen (table : Nat → Option Nat) (note : Note) (gap : Nat)
    (s : PartState) :
    (addNoteBlock table note gap s).positionsSeen =
      if note.pos ∈ s.positionsSeen then s.positionsSeen else note.pos :: s.positionsSeen := by
  unfold addNoteBlock
  split_ifs with h <;> simp [appendItems]

theorem padMeasure_noteItems (table : Nat → Option Nat) (nm : TNote) (next? : Option TNote)
    (s : PartState) :
    noteItems (measuresOf (padMeasure table nm next? s)) = noteItems (measuresOf s) ∧
    (padMeasure table nm next? s).positionsSeen = s.positionsSeen := by
  rcases next? with _ | nx <;> simp only [padMeasure]
  · rw [noteItems_appendItems, restItemsOf_filter, List.append_nil]
    exact ⟨rfl, rfl⟩
  · split_ifs with h
    · rw [noteItems_appendItems, restItemsOf_filter, List.append_nil]
      exact ⟨rfl, rfl⟩
    · exact ⟨rfl, rfl⟩

theorem filter_restMeasures (k : Nat) (base : Nat) :
    (((List.range k).map (fun i => restMeasureNode (base + i + 1))).flatMap
      (fun m => m.items)).filter isNoteItem = [] := by
  induction k with
  | zero => rfl
  | succ j ih =>
    rw [List.range_succ, List.map_append, List.flatMap_append, List.filter_append, ih]
    rfl

theorem openTrailing_noteItems (s : PartState) (base k n : Nat) :
    noteItems (measuresOf (openMeasure (addTrailingRestMeasures (pushCurr s) base k) n)) =
      noteItems (measuresOf s) := by
  simp [measuresOf, openMeasure, addTrailingRestMeasures, pushCurr, noteItems,
    List.flatMap_append, List.filter_append, filter_restMeasures]

theorem openTrailing_seen (s : PartState) (base k n : Nat) :
    (openMeasure (addTrailingRestMeasures (pushCurr s) base k) n).positionsSeen =
      s.positionsSeen := rfl

theorem measuresOf_setLast (s : PartState) (v : Nat) :
    measuresOf { s with lastMeasureNum := v } = measuresOf s := rfl

/-- Per-iteration effect of the loop on note items and the chord-detection
set: exactly one note item is appended (a chord item exactly when the
position was already seen), and the position becomes seen. -/
theorem noteStep_effect (table : Nat → Option Nat) (prev? : Option TNote) (nm : TNote)
    (next? : Option TNote) (s : PartState)
    (hfirst : prev? = none → s.lastMeasureNum = nm.2) :
    noteItems (measuresOf (noteStep table prev? nm next? s)) =
      noteItems (measuresOf s) ++ [addNote table (decide (nm.1.pos ∈ s.positionsSeen)) nm.1] ∧
    (noteStep table prev? nm next? s).positionsSeen =
      (if nm.1.pos ∈ s.positionsSeen then s.positionsSeen else nm.1.pos :: s.positionsSeen) := by
  unfold noteStep
  by_cases hm : s.lastMeasureNum = nm.2
  · rw [if_pos hm]
    constructor
    · rw [measuresOf_setLast, (padMeasure_noteItems table nm next? _).1,
        addNoteBlock_noteItems]
    · show (padMeasure table nm next? _).positionsSeen = _
      rw [(padMeasure_noteItems table nm next? _).2, addNoteBlock_seen]
  · rw [if_neg hm]
    rcases prev? with _ | pv
    · exact absurd (hfirst rfl) hm
    · constructor
      · rw [measuresOf_setLast, (padMeasure_noteItems table nm next? _).1,
          addNoteBlock_noteItems]
        rw [openTrailing_noteItems, openTrailing_seen]
      · show (padMeasure table nm next? _).positionsSeen = _
        rw [(padMeasure_noteItems table nm next? _).2, addNoteBlock_seen,
          openTrailing_seen]

/-- The loop emits exactly the expected note items for the remaining notes. -/
theorem layoutNotes_noteItems (table : Nat → Option Nat) (rest : List TNote) :
    ∀ (s : PartState) (prev? : Option TNote),
      (prev? = none → ∀ nm0 ∈ rest.head?, s.lastMeasureNum = nm0.2) →
      noteItems (measuresOf (layoutNotes table s prev? rest)) =
        noteItems (measuresOf s) ++ expectedNotes table s.positionsSeen rest := by
  induction rest with
  | nil => intro s prev? _; simp [layoutNotes, expectedNotes]
  | cons nm rest2 ih =>
    intro s prev? hfirst
    rw [layoutNotes]
    obtain ⟨hitems, hseen⟩ := noteStep_effect table prev? nm rest2.head? s
      (fun hp => hfirst hp nm rfl)
    rw [ih (noteStep table prev? nm rest2.head? s) (some nm) (fun h => nomatch h)]
    rw [hitems, hseen, expectedNotes, List.append_assoc]
    rfl

theorem initPart_last (name : String) (m1 : Nat) :
    (initPart name m1).lastMeasureNum = m1 := by
  unfold initPart
  split_ifs with h1 h2
  · exact h1.symm
  · exact h2.symm
  · rfl

theorem initPart_seen (name : String) (m1 : Nat) :
    (initPart name m1).positionsSeen = [] := by
  unfold initPart
  split_ifs <;> rfl

theorem filter_measureRestList (ms : List Measure)
    (h : ∀ m ∈ ms, m.items = [MItem.measureRest "32"]) :
    (ms.flatMap (fun m => m.items)).filter isNoteItem = [] := by
  induction ms with
  | nil => rfl
  | cons m rest ih =>
    rw [List.flatMap_cons, List.filter_append, h m (by simp),
      ih (fun x hx => h x (by simp [hx]))]
    rfl

theorem initPart_noteItems (name : String) (m1 : Nat) :
    noteItems (measuresOf (initPart name m1)) = [] := by
  unfold initPart
  split_ifs with h1 h2
  · rfl
  · rfl
  · show noteItems ((createFirstMeasure (clefFor name) 1 true ::
      (List.range' 2 (m1 - 2)).map restMeasureNode) ++
        [{ num := m1, clef? := none, items := [] }]) = []
    rw [noteItems, List.flatMap_append, List.filter_append,
      filter_measureRestList, List.nil_append]
    · rfl
    · intro m hm
      rcases List.mem_cons.1 hm with he | hm2
      · rw [he]; rfl
      · obtain ⟨i, _, hi⟩ := List.mem_map.1 hm2
        rw [← hi]; rfl

/-- Concrete input of end-to-end scenario 2: two notes at position 0 with raw
lengths 48 and 96. -/
def c4ScenarioNotes : List TNote :=
  [({ key := 60, pos := 0, len := 48 }, 1), ({ key := 64, pos := 0, len := 96 }, 1)]

/-- Concrete input refuting the "effective length equals the minimum of the
raw lengths" clause: a third note at position 24 truncates position 0's
entry to 24 < min 48 96. -/
def c4CounterNotes : List TNote :=
  [({ key := 60, pos := 0, len := 48 }, 1), ({ key := 64, pos := 0, len := 96 }, 1),
   ({ key := 65, pos := 24, len := 48 }, 1)]

/-- C4 counterexample: on `c4CounterNotes` the effective length at position 0
is 24, not `min 48 96 = 48`, and the primary note is emitted with duration 4
(an eighth) instead of the duration 8 (a quarter) that the minimum raw length
would give — so the emitted duration is not derived from the minimum of the
raw lengths. -/
theorem chord_emission_counterexample :
    createLengthTable c4CounterNotes 0 = some 24 ∧
    ¬ ((24 : Nat) = min 48 96) ∧
    (noteItems (layoutPart "piano" c4CounterNotes).1).head? =
      some (MItem.noteItem false "C" false 5 4 "eighth") ∧
    NOTE_TYPE (findClosestNoteType (min 48 96)) / 6 = 8 ∧ ¬ ((4 : Nat) = 8) := by
  refine ⟨by decide, by decide, ?_, by decide, by decide⟩
  decide

/-- C4 (amended): the loop emits exactly one note item per input note, in
order: the first note encountered at a position is the primary (non-chord)
note and every later note at that position is a chord entry, and both take
their duration and type from the position's effective length in the length
table; that effective length never exceeds the raw length of any note at the
position (hence never exceeds their minimum), and in the scenario of two
notes at position 0 with raw lengths 48 and 96 it equals the minimum 48 and
both notes are emitted as quarters of duration 8. -/
theorem chord_emission_spec :
    (∀ (name : String) (notes : List TNote),
      noteItems (layoutPart name notes).1 =
        expectedNotes (createLengthTable notes) [] notes)
    ∧ (∀ (notes : List TNote), ∀ nm ∈ notes, ∀ v,
        createLengthTable notes nm.1.pos = some v → v ≤ nm.1.len)
    ∧ (createLengthTable c4ScenarioNotes 0 = some 48 ∧
       min 48 96 = 48 ∧
       noteItems (layoutPart "piano" c4ScenarioNotes).1 =
         [MItem.noteItem false "C" false 5 8 "quarter",
          MItem.noteItem true "E" false 5 8 "quarter"]) := by
  refine ⟨?_, ?_, by decide, by decide, ?_⟩
  · intro name notes
    rcases notes with _ | ⟨n0, rest⟩
    · rfl
    · show noteItems (measuresOf
        (layoutNotes (createLengthTable (n0 :: rest)) (initPart name n0.2) none (n0 :: rest))) =
          expectedNotes (createLengthTable (n0 :: rest)) [] (n0 :: rest)
      rw [layoutNotes_noteItems (createLengthTable (n0 :: rest)) (n0 :: rest)
        (initPart name n0.2) none ?_]
      · rw [initPart_noteItems, initPart_seen, List.nil_append]
      · intro _ nm0 h0
        rw [initPart_last]
        cases h0
        rfl
  · intro notes nm hmem v hv
    exact lengthTableGo_le_len notes (fun _ => none) nm hmem v hv
  · decide

/-- Witness for `chord_emission_spec` on the scenario input: the table entry
48 at position 0 satisfies the raw-length bound `48 ≤ 48`. -/
theorem chord_emission_spec_witness :
    (({ key := 60, pos := 0, len := 48 }, 1) : TNote) ∈ c4ScenarioNotes ∧
    createLengthTable c4ScenarioNotes 0 = some 48 ∧ (48 : Nat) ≤ 48 :=
  ⟨by decide, by decide,
    chord_emission_spec.2.1 c4ScenarioNotes ({ key := 60, pos := 0, len := 48 }, 1)
      (by decide) 48 (by decide)⟩

/-! ### Measure numbering of a laid-out part and cross-part padding (C9) -/

theorem mnums_appendItems (s : PartState) (its : List MItem) :
    (measuresOf (appendItems s its)).map (fun m => m.num) =
      (measuresOf s).map (fun m => m.num) := by
  simp [measuresOf, appendItems]

theorem mnums_padMeasure (table : Nat → Option Nat) (nm : TNote) (next? : Option TNote)
    (s : PartState) :
    (measuresOf (padMeasure table nm next? s)).map (fun m => m.num) =
      (measuresOf s).map (fun m => m.num) := by
  rcases next? with _ | nx <;> simp only [padMeasure]
  · exact mnums_appendItems s _
  · split_ifs with h
    · exact mnums_appendItems s _
    · rfl

theorem mnums_addNoteBlock (table : Nat → Option Nat) (note : Note) (gap : Nat)
    (s : PartState) :
    (measuresOf (addNoteBlock table note gap s)).map (fun m => m.num) =
      (measuresOf s).map (fun m => m.num) := by
  unfold addNoteBlock
  split_ifs with h <;> simp [measuresOf, appendItems]

theorem range_shift_eq (base k : Nat) :
    (List.range k).map (fun i => base + i + 1) = List.range' (base + 1) k := by
  rw [List.range'_eq_map_range]
  exact List.map_congr_left (fun a _ => by omega)

theorem mnums_openTrailing (s : PartState) (base k n : Nat) :
    (measuresOf (openMeasure (addTrailingRestMeasures (pushCurr s) base k) n)).map
        (fun m => m.num) =
      (measuresOf s).map (fun m => m.num) ++ (List.range' (base + 1) k ++ [n]) := by
  simp only [measuresOf, openMeasure, addTrailingRestMeasures, pushCurr, List.map_append,
    List.append_assoc, List.map_cons, List.map_nil, List.map_map]
  rw [show (List.map ((fun m : Measure => m.num) ∘ fun i => restMeasureNode (base + i + 1))
      (List.range k)) = (List.range k).map (fun i => base + i + 1) from
        List.map_congr_left (fun a _ => rfl), range_shift_eq]

theorem range'_glue (a b : Nat) (hab : a < b) :
    List.range' 1 a ++ (List.range' (a + 1) (b - a - 1) ++ [b]) = List.range' 1 b := by
  have h1 : ([b] : List Nat) = List.range' b 1 := rfl
  have h2 := List.range'_append (a + 1) (b - a - 1) 1 1
  have h3 : a + 1 + 1 * (b - a - 1) = b := by omega
  rw [h3] at h2
  have h4 : 1 + (b - a - 1) = b - a := by omega
  rw [h4] at h2
  rw [h1, h2]
  have h5 := List.range'_append 1 a (b - a) 1
  have h6 : 1 + 1 * a = a + 1 := by omega
  rw [h6] at h5
  have h7 : b - a + a = b := by omega
  rw [h7] at h5
  exact h5

/-- Per-iteration effect of the loop on measure numbers: when the tags are
monotone the measures stay exactly `1 .. current measure`. -/
theorem noteStep_mnums (table : Nat → Option Nat) (prev? : Option TNote) (nm : TNote)
    (next? : Option TNote) (s : PartState)
    (hprev : ∀ pv, prev? = some pv → pv.2 = s.lastMeasureNum)
    (hfirst : prev? = none → s.lastMeasureNum = nm.2)
    (hle : s.lastMeasureNum ≤ nm.2)
    (hinv : (measuresOf s).map (fun m => m.num) = List.range' 1 s.lastMeasureNum) :
    (measuresOf (noteStep table prev? nm next? s)).map (fun m => m.num) =
      List.range' 1 nm.2 ∧
    (noteStep table prev? nm next? s).lastMeasureNum = nm.2 := by
  unfold noteStep
  by_cases hm : s.lastMeasureNum = nm.2
  · rw [if_pos hm]
    refine ⟨?_, rfl⟩
    rw [measuresOf_setLast, mnums_padMeasure, mnums_addNoteBlock, hinv, hm]
  · rw [if_neg hm]
    rcases prev? with _ | pv
    · exact absurd (hfirst rfl) hm
    · refine ⟨?_, rfl⟩
      rw [measuresOf_setLast, mnums_padMeasure, mnums_addNoteBlock, mnums_openTrailing,
        hinv, hprev pv rfl]
      exact range'_glue s.lastMeasureNum nm.2 (by omega)

/-- The loop keeps the measure numbers exactly `1 .. lastMeasureNum`. -/
theorem layoutNotes_mnums (table : Nat → Option Nat) (rest : List TNote) :
    ∀ (s : PartState) (prev? : Option TNote),
      (∀ pv, prev? = some pv → pv.2 = s.lastMeasureNum) →
      (∀ nm0 ∈ rest.head?, s.lastMeasureNum ≤ nm0.2 ∧
        (prev? = none → s.lastMeasureNum = nm0.2)) →
      List.Chain' (fun a b : TNote => a.2 ≤ b.2) rest →
      (measuresOf s).map (fun m => m.num) = List.range' 1 s.lastMeasureNum →
      (measuresOf (layoutNotes table s prev? rest)).map (fun m => m.num) =
        List.range' 1 (layoutNotes table s prev? rest).lastMeasureNum := by
  induction rest with
  | nil => intro s prev? _ _ _ hinv; exact hinv
  | cons nm rest2 ih =>
    intro s prev? hprev hhead hchain hinv
    obtain ⟨hle, hfirst⟩ := hhead nm rfl
    obtain ⟨hstep, hlast⟩ := noteStep_mnums table prev? nm rest2.head? s hprev hfirst hle hinv
    rw [layoutNotes]
    refine ih (noteStep table prev? nm rest2.head? s) (some nm) ?_ ?_
      (List.chain'_cons'.1 hchain).2 (hlast ▸ hstep)
    · intro pv hpv
      cases hpv
      exact hlast.symm
    · intro nm1 h1
      refine ⟨?_, fun h => nomatch h⟩
      rw [hlast]
      exact (List.chain'_cons'.1 hchain).1 nm1 h1

theorem initPart_mnums (name : String) (m1 : Nat) (h : 1 ≤ m1) :
    (measuresOf (initPart name m1)).map (fun m => m.num) = List.range' 1 m1 := by
  unfold initPart
  split_ifs with h1 h2
  · rw [h1]; rfl
  · omega
  · show ((createFirstMeasure (clefFor name) 1 true ::
      (List.range' 2 (m1 - 2)).map restMeasureNode) ++
        [({ num := m1, clef? := none, items := [] } : Measure)]).map (fun m => m.num) = _
    simp only [List.map_append, List.map_cons, List.map_nil, List.map_map,
      createFirstMeasure]
    have hmap : List.map ((fun m : Measure => m.num) ∘ restMeasureNode)
        (List.range' 2 (m1 - 2)) = List.range' 2 (m1 - 2) := by
      exact List.map_congr_left (fun a _ => rfl) |>.trans (List.map_id _)
    rw [hmap]
    have hglue := List.range'_append 2 (m1 - 2) 1 1
    have h3 : 2 + 1 * (m1 - 2) = m1 := by omega
    rw [h3, List.range'_one] at hglue
    have h4 : 1 + (m1 - 2) = m1 - 1 := by omega
    rw [h4] at hglue
    show 1 :: (List.range' 2 (m1 - 2) ++ [m1]) = List.range' 1 m1
    rw [hglue]
    have hglue2 := List.range'_append 1 1 (m1 - 1) 1
    rw [List.range'_one] at hglue2
    have h5 : 1 + 1 * 1 = 2 := by omega
    rw [h5] at hglue2
    have h6 : m1 - 1 + 1 = m1 := by omega
    rw [h6] at hglue2
    exact hglue2

/-- A part as recorded for the cross-part finalization: its id, its measure
list, and its `partMeasures` entry (`none` for an empty instrument, which the
source never records in `partMeasures`). -/
structure BuiltPart where
  id : String
  body : List Measure
  lastM : Option Nat
deriving DecidableEq

/-- One step of the `highestNumMeasures` fold. -/
def measureFold (acc : Nat) (p : BuiltPart) : Nat :=
  match p.lastM with
  | some m => if acc < m then m else acc
  | none => acc

/-- `highestNumMeasures`: the maximum recorded final measure index. -/
def highestNumMeasures (parts : List BuiltPart) : Nat :=
  parts.foldl measureFold 0

/-- Pad one part to `M` measures with trailing whole-rest measures numbered
`m+1 .. M`. -/
def padPart (M : Nat) (p : BuiltPart) : BuiltPart :=
  match p.lastM with
  | some m =>
      if m < M then
        { p with body := p.body ++ (List.range' (m + 1) (M - m)).map restMeasureNode }
      else p
  | none => p

/-- The cross-part finalization: every recorded part is padded to the
maximum. -/
def padParts (parts : List BuiltPart) : List BuiltPart :=
  parts.map (padPart (highestNumMeasures parts))

theorem measureFold_le (acc : Nat) (p : BuiltPart) : acc ≤ measureFold acc p := by
  unfold measureFold
  rcases hp : p.lastM with _ | m
  · exact Nat.le_refl acc
  · show acc ≤ if acc < m then m else acc
    split_ifs <;> omega

theorem foldl_measureFold_le (l : List BuiltPart) :
    ∀ acc : Nat, acc ≤ l.foldl measureFold acc := by
  induction l with
  | nil => intro acc; exact Nat.le_refl acc
  | cons p rest ih =>
    intro acc
    exact Nat.le_trans (measureFold_le acc p) (ih (measureFold acc p))

theorem highest_ge (l : List BuiltPart) :
    ∀ acc : Nat, ∀ p ∈ l, ∀ m, p.lastM = some m → m ≤ l.foldl measureFold acc := by
  induction l with
  | nil => intro acc p hp; exact absurd hp (List.not_mem_nil p)
  | cons q rest ih =>
    intro acc p hp m hm
    rcases List.mem_cons.1 hp with he | hmem
    · subst he
      have h1 : m ≤ measureFold acc p := by
        unfold measureFold
        rw [hm]
        show m ≤ if acc < m then m else acc
        split_ifs <;> omega
      exact Nat.le_trans h1 (foldl_measureFold_le rest (measureFold acc p))
    · exact ih (measureFold acc q) p hmem m hm

theorem padPart_eq (M : Nat) (p : BuiltPart) (m : Nat) (hm : p.lastM = some m) :
    padPart M p =
      if m < M then
        { p with body := p.body ++ (List.range' (m + 1) (M - m)).map restMeasureNode }
      else p := by
  unfold padPart
  rw [hm]

/-- C9: after all per-part layout completes, a part whose layout ended at
measure `m` holds exactly the measures `1 .. m` (first conjunct), and the
cross-part finalization appends to it exactly `M - m` trailing whole-rest
measures numbered `m+1 .. M`, where `M` is the maximum final measure index,
so that every recorded part ends up with exactly `M` measures. -/
theorem partMeasures_padding_spec :
    (∀ (name : String) (notes : List TNote),
      List.Chain' (fun a b : TNote => a.2 ≤ b.2) notes →
      (∀ nm ∈ notes, 1 ≤ nm.2) →
      (layoutPart name notes).1.map (fun m => m.num) =
        List.range' 1 (layoutPart name notes).2)
    ∧ (∀ (parts : List BuiltPart), ∀ p ∈ parts, ∀ m, p.lastM = some m →
        (padPart (highestNumMeasures parts) p).body =
          p.body ++
            (List.range' (m + 1) (highestNumMeasures parts - m)).map restMeasureNode ∧
        (p.body.map (fun mm => mm.num) = List.range' 1 m →
          (padPart (highestNumMeasures parts) p).body.length =
            highestNumMeasures parts)) := by
  constructor
  · intro name notes hchain hone
    rcases notes with _ | ⟨n0, rest⟩
    · rfl
    · show (measuresOf (layoutNotes (createLengthTable (n0 :: rest))
        (initPart name n0.2) none (n0 :: rest))).map (fun m => m.num) =
          List.range' 1 (layoutNotes (createLengthTable (n0 :: rest))
            (initPart name n0.2) none (n0 :: rest)).lastMeasureNum
      refine layoutNotes_mnums (createLengthTable (n0 :: rest)) (n0 :: rest)
        (initPart name n0.2) none (fun pv h => nomatch h) ?_ hchain ?_
      · intro nm0 h0
        cases h0
        rw [initPart_last]
        exact ⟨Nat.le_refl _, fun _ => rfl⟩
      · rw [initPart_last]
        exact initPart_mnums name n0.2 (hone n0 (by simp))
  · intro parts p hp m hm
    have hle : m ≤ highestNumMeasures parts := highest_ge parts 0 p hp m hm
    constructor
    · rw [padPart_eq (highestNumMeasures parts) p m hm]
      by_cases hlt : m < highestNumMeasures parts
      · rw [if_pos hlt]
      · rw [if_neg hlt]
        have h0 : highestNumMeasures parts - m = 0 := by omega
        rw [h0]
        simp
    · intro hbody
      have hlen : p.body.length = m := by
        have := congrArg List.length hbody
        simpa using this
      rw [padPart_eq (highestNumMeasures parts) p m hm]
      by_cases hlt : m < highestNumMeasures parts
      · rw [if_pos hlt]
        simp only [List.length_append, List.length_map, List.length_range', hlen]
        omega
      · rw [if_neg hlt]
        omega

/-- Concrete single-note input for the C9 witness. -/
def c9WitnessNotes : List TNote := [({ key := 60, pos := 0, len := 48 }, 1)]

/-- The shorter of the two parts in the C9 witness. -/
def c9SecondPart : BuiltPart :=
  { id := "P2", body := [restMeasureNode 1], lastM := some 1 }

/-- Two recorded parts, ending at measures 2 and 1. -/
def c9WitnessParts : List BuiltPart :=
  [{ id := "P1", body := [restMeasureNode 1, restMeasureNode 2], lastM := some 2 },
   c9SecondPart]

/-- Witness for `partMeasures_padding_spec`: the single-note part holds
exactly measure 1, and the shorter of two recorded parts is padded with one
whole-rest measure to the maximum of 2 measures. -/
theorem partMeasures_padding_spec_witness :
    (List.Chain' (fun a b : TNote => a.2 ≤ b.2) c9WitnessNotes ∧
      (∀ nm ∈ c9WitnessNotes, 1 ≤ nm.2) ∧
      c9SecondPart ∈ c9WitnessParts ∧ c9SecondPart.lastM = some 1 ∧
      c9SecondPart.body.map (fun mm => mm.num) = List.range' 1 1) ∧
    ((layoutPart "piano" c9WitnessNotes).1.map (fun m => m.num) =
      List.range' 1 (layoutPart "piano" c9WitnessNotes).2) ∧
    ((padPart (highestNumMeasures c9WitnessParts) c9SecondPart).body =
      c9SecondPart.body ++
        (List.range' (1 + 1) (highestNumMeasures c9WitnessParts - 1)).map restMeasureNode) ∧
    ((padPart (highestNumMeasures c9WitnessParts) c9SecondPart).body.length =
      highestNumMeasures c9WitnessParts) := by
  have hch : List.Chain' (fun a b : TNote => a.2 ≤ b.2) c9WitnessNotes := by
    simp [c9WitnessNotes]
  have hone : ∀ nm ∈ c9WitnessNotes, 1 ≤ nm.2 := by decide
  have hmem : c9SecondPart ∈ c9WitnessParts := by decide
  have hlast : c9SecondPart.lastM = some 1 := rfl
  have hbody : c9SecondPart.body.map (fun mm => mm.num) = List.range' 1 1 := by decide
  refine ⟨⟨hch, hone, hmem, hlast, hbody⟩, ?_, ?_, ?_⟩
  · exact partMeasures_padding_spec.1 "piano" c9WitnessNotes hch hone
  · exact (partMeasures_padding_spec.2 c9WitnessParts c9SecondPart hmem 1 hlast).1
  · exact (partMeasures_padding_spec.2 c9WitnessParts c9SecondPart hmem 1 hlast).2 hbody

/-! ### Document assembly (`scorePartwise`, part list, empty-track removal) -/

/-- An instrument track of the project file. -/
structure Track where
  name : String
  chunks : List Chunk
deriving DecidableEq

/-- The flattened, measure-tagged, position-sorted note list of one track. -/
def flattenTrackNotes (t : Track) : List TNote := sortNotes (patternNotes t.chunks)

/-- First pass over the tracks: declare `score-part` entries `P1, P2, ...`
for every recognized instrument. -/
def partListOf : Nat → List Track → List (String × String)
  | _, [] => []
  | c, t :: ts =>
    if t.name ∈ INSTRUMENTS then
      ("P" ++ toString c, t.name) :: partListOf (c + 1) ts
    else partListOf c ts

/-- Second pass: build each recognized track's part body.  A track with zero
notes contributes an empty part node, its id is recorded in
`emptyInstruments`, and — exactly as in the source, where `continue` skips
the counter increment — the instrument counter is NOT advanced. -/
def buildParts : Nat → List Track → List BuiltPart × List String
  | _, [] => ([], [])
  | c, t :: ts =>
    if t.name ∈ INSTRUMENTS then
      if (flattenTrackNotes t).isEmpty then
        let r := buildParts c ts
        ({ id := "P" ++ toString c, body := [], lastM := none } :: r.1,
         ("P" ++ toString c) :: r.2)
      else
        let lp := layoutPart t.name (flattenTrackNotes t)
        let r := buildParts (c + 1) ts
        ({ id := "P" ++ toString c, body := lp.1, lastM := some lp.2 } :: r.1, r.2)
    else buildParts c ts

/-- The final document: the part list and the part bodies. -/
structure ScoreDoc where
  partList : List (String × String)
  parts : List (String × List Measure)
deriving DecidableEq

/-- The whole conversion: declare parts, build bodies, pad all parts to the
same measure count, then remove every node whose id is in
`emptyInstruments` from both lists. -/
def scorePartwise (tracks : List Track) : ScoreDoc :=
  let pl := partListOf 1 tracks
  let bp := buildParts 1 tracks
  let padded := padParts bp.1
  { partList := pl.filter (fun p => decide (p.1 ∉ bp.2)),
    parts := (padded.filter (fun p => decide (p.id ∉ bp.2))).map (fun p => (p.id, p.body)) }

/-- Numeric reading of a duration text, for totalling a measure. -/
def durationTextVal (s : String) : Nat :=
  if s = "1" then 1
  else if s = "2" then 2
  else if s = "4" then 4
  else if s = "8" then 8
  else if s = "16" then 16
  else if s = "32" then 32
  else 0

/-- Duration units contributed by one notation item. -/
def durationUnits : MItem → Nat
  | MItem.noteItem _ _ _ _ d _ => d
  | MItem.restItem _ dtext => durationTextVal dtext
  | MItem.measureRest dtext => durationTextVal dtext

/-- End-to-end scenario 1 input: one piano track, one note at position 0 of
length 48, in an otherwise empty one-measure piece. -/
def c8Tracks : List Track :=
  [{ name := "piano", chunks := [{ pos := 0, notes := [{ key := 60, pos := 0, len := 48 }] }] }]

/-- The single expected output measure of scenario 1. -/
def c8Measure : Measure :=
  { num := 1, clef? := some "treble",
    items := [MItem.noteItem false "C" false 5 8 "quarter",
              MItem.restItem "quarter" "8",
              MItem.restItem "quarter" "8",
              MItem.restItem "quarter" "8"] }

/-- C8: on the scenario-1 input the document declares exactly one part with
exactly one measure holding one quarter note (pitch C, octave 5, duration 8)
followed by three quarter rests of duration text `"8"`, and the measure's
durations total 32 division units. -/
theorem scenario1_spec :
    (scorePartwise c8Tracks).partList = [("P1", "piano")] ∧
    (scorePartwise c8Tracks).parts = [("P1", [c8Measure])] ∧
    ((((scorePartwise c8Tracks).parts.flatMap (fun p => p.2)).flatMap
        (fun m => m.items)).map durationUnits).sum = 32 := by
  exact ⟨by decide, by decide, by decide⟩

/-- Failing input for the empty-track scenario: a recognized empty track
(`bass`) between two recognized non-empty tracks. -/
def c2Tracks : List Track :=
  [{ name := "piano", chunks := [{ pos := 0, notes := [{ key := 60, pos := 0, len := 48 }] }] },
   { name := "bass", chunks := [] },
   { name := "violin", chunks := [{ pos := 0, notes := [{ key := 72, pos := 0, len := 48 }] }] }]

/-- The recognized, non-empty violin track of the failing input. -/
def c2ViolinTrack : Track :=
  { name := "violin", chunks := [{ pos := 0, notes := [{ key := 72, pos := 0, len := 48 }] }] }

/-- The same input with the empty track removed. -/
def c2TracksWithout : List Track :=
  [{ name := "piano", chunks := [{ pos := 0, notes := [{ key := 60, pos := 0, len := 48 }] }] },
   { name := "violin", chunks := [{ pos := 0, notes := [{ key := 72, pos := 0, len := 48 }] }] }]

/-- C2 (code bug): because the instrument counter is not advanced for an
empty track, the non-empty `violin` track that follows it is given the same
part id `P2` as the empty `bass` part, and the final removal of `P2` deletes
the violin part body as well: the document keeps the declaration `P3` for
violin but only one part body, whereas without the empty track both bodies
survive — other tracks are NOT unaffected. -/
theorem emptyInstrument_bug :
    (scorePartwise c2Tracks).partList.map Prod.fst = ["P1", "P3"] ∧
    (scorePartwise c2Tracks).parts.map Prod.fst = ["P1"] ∧
    (scorePartwise c2TracksWithout).partList.map Prod.fst = ["P1", "P2"] ∧
    (scorePartwise c2TracksWithout).parts.map Prod.fst = ["P1", "P2"] ∧
    flattenTrackNotes c2ViolinTrack ≠ [] ∧
    ¬ ((scorePartwise c2Tracks).parts.length = 2) := by
  exact ⟨by decide, by decide, by decide, by decide, by decide, by decide⟩
